import Mathlib

/-!
Verification of the langsplain numeric simulation core.

Shallow embedding of the numeric simulation layer of the repository:
`src/modules/math-utils.js` (softmax, matrix ops, causal masking, attention,
seeded LCG), the tokenizer / simulated-BPE layer of `src/modules/tour.js`,
and the sampling / MOE-routing pipeline of `src/modules/moe-demo.js`.

Modelling conventions:
* JS numbers are modelled by exact rationals.  The special values `NaN`,
  `-Infinity`, `+Infinity` that actually occur in the code's data flow
  (causal masking, `Math.max` of an empty spread, division by zero) are
  modelled by the four-constructor type `JSNum`.  Floating point rounding is
  not modelled: the model computes in exact real (rational) arithmetic, and
  the properties proved are either rounding-independent (exact zeros,
  selection of indices, counts, termination) or are stated by the spec with
  a tolerance that exact arithmetic trivially satisfies.
* `Math.exp`, `Math.sin`, `Math.cos`, `Math.pow` and `Math.sqrt` produce
  irrational values, so the functions that use them are parameterised by
  rational stand-ins (`E`, `Sin`, `Cos`, `Powf`, `sq`); theorems assume of
  them only what the proofs need (e.g. positivity and monotonicity of `E`,
  mirroring `Math.exp`), and concrete witnesses instantiate them with
  computable rational functions having those properties.
-/

namespace Langsplain

/-- Model of a JS `number` as used by this code base: `NaN`, `-Infinity`,
`+Infinity`, or a finite value (an exact rational). -/
inductive JSNum where
  | nan : JSNum
  | ninf : JSNum
  | pinf : JSNum
  | fin : ℚ → JSNum
deriving DecidableEq

/-- JS addition `x + y` restricted to the values of `JSNum`
(`NaN` propagates; `-Infinity + Infinity = NaN`). -/
def addJ : JSNum → JSNum → JSNum
  | .nan, _ => .nan
  | _, .nan => .nan
  | .ninf, .pinf => .nan
  | .pinf, .ninf => .nan
  | .ninf, _ => .ninf
  | _, .ninf => .ninf
  | .pinf, _ => .pinf
  | _, .pinf => .pinf
  | .fin a, .fin b => .fin (a + b)

/-- JS subtraction `x - y` (`NaN` propagates; `±Infinity - ±Infinity = NaN`). -/
def subJ : JSNum → JSNum → JSNum
  | .nan, _ => .nan
  | _, .nan => .nan
  | .ninf, .ninf => .nan
  | .pinf, .pinf => .nan
  | .ninf, _ => .ninf
  | _, .pinf => .ninf
  | .pinf, _ => .pinf
  | _, .ninf => .pinf
  | .fin a, .fin b => .fin (a - b)

/-- JS multiplication `x * y` (`NaN` propagates; `±Infinity * 0 = NaN`). -/
def mulJ : JSNum → JSNum → JSNum
  | .nan, _ => .nan
  | _, .nan => .nan
  | .pinf, .pinf => .pinf
  | .pinf, .ninf => .ninf
  | .ninf, .pinf => .ninf
  | .ninf, .ninf => .pinf
  | .pinf, .fin b => if b = 0 then .nan else if 0 < b then .pinf else .ninf
  | .fin a, .pinf => if a = 0 then .nan else if 0 < a then .pinf else .ninf
  | .ninf, .fin b => if b = 0 then .nan else if 0 < b then .ninf else .pinf
  | .fin a, .ninf => if a = 0 then .nan else if 0 < a then .ninf else .pinf
  | .fin a, .fin b => .fin (a * b)

/-- JS division `x / y`.  Division of a nonzero finite value by zero gives a
signed infinity (zero is treated as JS `+0`), `0 / 0 = NaN`, and a finite
value divided by an infinity gives `0`. -/
def divJ : JSNum → JSNum → JSNum
  | .nan, _ => .nan
  | _, .nan => .nan
  | .pinf, .pinf => .nan
  | .pinf, .ninf => .nan
  | .ninf, .pinf => .nan
  | .ninf, .ninf => .nan
  | .pinf, .fin b => if 0 ≤ b then .pinf else .ninf
  | .ninf, .fin b => if 0 ≤ b then .ninf else .pinf
  | .fin _, .pinf => .fin 0
  | .fin _, .ninf => .fin 0
  | .fin a, .fin b =>
      if b = 0 then (if a = 0 then .nan else if 0 < a then .pinf else .ninf)
      else .fin (a / b)

/-- Binary JS `Math.max` (`NaN` propagates). -/
def max2J : JSNum → JSNum → JSNum
  | .nan, _ => .nan
  | _, .nan => .nan
  | .pinf, _ => .pinf
  | _, .pinf => .pinf
  | .ninf, y => y
  | x, .ninf => x
  | .fin a, .fin b => .fin (max a b)

/-- Variadic JS `Math.max(...arr)`: fold of `max2J` starting from the
identity `-Infinity` (so `Math.max()` of an empty spread is `-Infinity`). -/
def maxJ (arr : List JSNum) : JSNum :=
  arr.foldl max2J .ninf

/-- JS `arr.reduce((a, b) => a + b, 0)` over `JSNum`. -/
def sumJ (arr : List JSNum) : JSNum :=
  arr.foldl addJ (.fin 0)

/-- JS `Math.exp` over `JSNum`, with the finite branch given by the
parameter `E` (a rational stand-in for the real exponential):
`exp(-Infinity) = 0`, `exp(Infinity) = Infinity`, `exp(NaN) = NaN`. -/
def expJ (E : ℚ → ℚ) : JSNum → JSNum
  | .nan => .nan
  | .ninf => .fin 0
  | .pinf => .pinf
  | .fin q => .fin (E q)

/-!  ## math-utils.js  -/

/-- Embedding of `softmax(arr)` from `math-utils.js`, over the full JS number model:

    const max = Math.max(...arr);
    const exps = arr.map(x => Math.exp(x - max));
    const sum = exps.reduce((a, b) => a + b, 0);
    return exps.map(x => x / sum);
-/
def softmax (E : ℚ → ℚ) (arr : List JSNum) : List JSNum :=
  let m := maxJ arr
  let exps := arr.map fun x => expJ E (subJ x m)
  let sum := sumJ exps
  exps.map fun x => divJ x sum

/-- Variadic `Math.max(...arr)` for a list of finite values.  On the empty list the
JS value is `-Infinity`; the returned rational is then irrelevant because
every caller only maps over the (empty) array afterwards, and we pick `0`. -/
def maxQ : List ℚ → ℚ
  | [] => 0
  | a :: rest => rest.foldl max a

/-- Embedding of `softmax(arr)` specialised to an all-finite input array, producing the
finite results as rationals.  `softmax_eq_softmaxQ` proves this agrees with
the `JSNum`-level `softmax` on nonempty all-finite inputs for positive `E`;
on the empty input both return the empty array. -/
def softmaxQ (E : ℚ → ℚ) (arr : List ℚ) : List ℚ :=
  let m := maxQ arr
  let exps := arr.map fun x => E (x - m)
  let s := exps.sum
  exps.map fun x => x / s

/-- Embedding of `applyCausalMask(scores)` from `math-utils.js`: entries strictly above
the diagonal (`column index > row index`) become `-Infinity`, all others are
returned unchanged. -/
def applyCausalMask (scores : List (List JSNum)) : List (List JSNum) :=
  scores.enum.map fun ri =>
    ri.2.enum.map fun cv => if ri.1 < cv.1 then JSNum.ninf else cv.2

/-- Embedding of `transpose(M)` from `math-utils.js`: the result has `M[0].length` rows
and `M.length` columns, with `result[j][i] = M[i][j]`.  Out-of-range reads
(which in JS would produce `undefined`) are modelled by `getD` with default
`0`; every use in this file satisfies the uniform-dimension hypotheses under
which no out-of-range read happens. -/
def transposeM (M : List (List ℚ)) : List (List ℚ) :=
  (List.range M.headI.length).map fun j =>
    (List.range M.length).map fun i => (M.getD i []).getD j 0

/-- Embedding of `matmul(A, B)` from `math-utils.js`:
`result[i][j] = sum over k < A[0].length of A[i][k] * B[k][j]`, with
`B[0].length` columns.  As for `transposeM`, out-of-range reads are modelled
by `getD 0`; the dimension hypotheses of the theorems rule them out. -/
def matmul (A B : List (List ℚ)) : List (List ℚ) :=
  A.map fun row =>
    (List.range B.headI.length).map fun j =>
      ((List.range A.headI.length).map fun k =>
        row.getD k 0 * (B.getD k []).getD j 0).sum

/-- Embedding of `matmul` over `JSNum` entries, mirroring the same triple loop with JS
arithmetic (used for the `weights @ V` step of attention, whose weights may
in general be `NaN`).  The accumulator starts at `0` as in the source. -/
def matmulJ (A B : List (List JSNum)) : List (List JSNum) :=
  A.map fun row =>
    (List.range B.headI.length).map fun j =>
      ((List.range A.headI.length).map fun k =>
        mulJ (row.getD k .nan) ((B.getD k []).getD j .nan)).foldl addJ (.fin 0)

/-- Embedding of `matvec(M, v)` from `math-utils.js`:
`M.map(row => row.reduce((sum, val, i) => sum + val * v[i], 0))`.
Modelled with `zipWith`; faithful whenever `v` is at least as long as each
row, which holds at every call site used here. -/
def matvec (M : List (List ℚ)) (v : List ℚ) : List ℚ :=
  M.map fun row => (row.zipWith (· * ·) v).sum

/-- One step of the seeded linear congruential generator of
`seededRandom(seed)`: `s = (s * 1664525 + 1013904223) % 4294967296`. -/
def lcgNext (s : ℕ) : ℕ :=
  (s * 1664525 + 1013904223) % 4294967296

/-- State of the LCG after `n` steps from `seed`; the value returned by the
`n`-th call (counting from 0) of the closure returned by
`seededRandom(seed)` is `lcgState seed (n+1) / 4294967296`. -/
def lcgState (seed : ℕ) : ℕ → ℕ
  | 0 => seed
  | n + 1 => lcgNext (lcgState seed n)

/-- Embedding of `randomVector(dim, seed)` from `math-utils.js`: `dim` sequential draws
`rng() * 2 - 1`. -/
def randomVector (dim : ℕ) (seed : ℕ) : List ℚ :=
  (List.range dim).map fun i =>
    ((lcgState seed (i + 1) : ℚ) / 4294967296) * 2 - 1

/-- Embedding of `randomMatrix(rows, cols, seed)` from `math-utils.js`: a single LCG
stream drawn row-major, each entry `(rng() * 2 - 1) * 0.1`. -/
def randomMatrix (rows cols : ℕ) (seed : ℕ) : List (List ℚ) :=
  (List.range rows).map fun r =>
    (List.range cols).map fun c =>
      (((lcgState seed (r * cols + c + 1) : ℚ) / 4294967296) * 2 - 1) * (1 / 10)

/-- Result record of `scaledDotProductAttention`. -/
structure AttnResult where
  weights : List (List JSNum)
  output : List (List JSNum)
deriving DecidableEq

/-- Embedding of `scaledDotProductAttention(Q, K, V, causal)` from `math-utils.js`.
`Math.sqrt(d_k)` is irrational, so the scale is given by the parameter `sq`
(theorems assume `0 < sq d_k`, which holds for the real square root since
`d_k ≥ 1`).  The scores `Q·Kᵀ` are finite rationals; masking then introduces
`-Infinity` entries, after which each row goes through `softmax`. -/
def scaledDotProductAttention (E : ℚ → ℚ) (sq : ℚ → ℚ)
    (Q K V : List (List ℚ)) (causal : Bool) : AttnResult :=
  let dk : ℕ := Q.headI.length
  let scores := matmul Q (transposeM K)
  let scaled := scores.map fun row => row.map fun x => x / sq (dk : ℚ)
  let scaledJ := scaled.map fun row => row.map JSNum.fin
  let masked := if causal then applyCausalMask scaledJ else scaledJ
  let weights := masked.map (softmax E)
  { weights := weights
    output := matmulJ weights (V.map fun row => row.map JSNum.fin) }

/-!  ## tour.js — tokenizer and simulated BPE  -/

/-- A BPE merge rule `{ pair, result, frequency }` from `tour.js`. -/
structure MergeRule where
  pair : String × String
  result : String
  frequency : ℕ
deriving DecidableEq

/-- The hand-authored `BPE_MERGE_RULES` table of `tour.js`, in source order. -/
def BPE_MERGE_RULES : List MergeRule := [
  ⟨("t", "h"), "th", 3847⟩,
  ⟨("th", "e"), "the", 2941⟩,
  ⟨("i", "n"), "in", 2156⟩,
  ⟨("a", "n"), "an", 1893⟩,
  ⟨("e", "r"), "er", 1742⟩,
  ⟨("o", "n"), "on", 1521⟩,
  ⟨("r", "e"), "re", 1398⟩,
  ⟨("e", "d"), "ed", 1287⟩,
  ⟨("in", "g"), "ing", 1156⟩,
  ⟨("a", "t"), "at", 1089⟩,
  ⟨("i", "s"), "is", 987⟩,
  ⟨("o", "u"), "ou", 876⟩,
  ⟨("e", "n"), "en", 823⟩,
  ⟨("s", "t"), "st", 798⟩,
  ⟨("un", "der"), "under", 654⟩,
  ⟨("st", "and"), "stand", 543⟩,
  ⟨("under", "stand"), "understand", 421⟩,
  ⟨("ing", "s"), "ings", 398⟩,
  ⟨("c", "at"), "cat", 356⟩,
  ⟨("s", "at"), "sat", 312⟩,
  ⟨("m", "at"), "mat", 287⟩,
  ⟨("h", "e"), "he", 1654⟩,
  ⟨("s", "h"), "sh", 543⟩,
  ⟨("c", "h"), "ch", 487⟩,
  ⟨("w", "h"), "wh", 432⟩]

/-- Lookup in `MERGE_MAP` (a JS `Map` keyed by `left + '|' + right`).  The
25 keys are pairwise distinct, so the `Map` lookup coincides with finding
the first rule whose pair matches. -/
def mergeLookup (a b : String) : Option MergeRule :=
  BPE_MERGE_RULES.find? fun r => r.pair.1 = a ∧ r.pair.2 = b

/-- The `VOCABULARY` array of `tour.js`, in source order (duplicate entries
such as `then`, `that`, `world` included: the JS `Map` built from it maps a
duplicated word to its *last* index). -/
def VOCABULARY : List String := [
  "<pad>", "<unk>", "<bos>", "<eos>",
  "the", "a", "an", "is", "are", "was", "were", "be", "been", "being",
  "have", "has", "had", "do", "does", "did", "will", "would", "could", "should",
  "may", "might", "must", "shall", "can", "need", "dare", "ought", "used", "to",
  "and", "but", "or", "nor", "for", "yet", "so", "if", "then", "else",
  "when", "where", "why", "how", "what", "which", "who", "whom", "whose",
  "this", "that", "these", "those", "here", "there", "now", "then",
  "in", "on", "at", "by", "with", "from", "of", "as", "into", "through",
  "i", "you", "he", "she", "it", "we", "they", "me", "him", "her", "us", "them",
  "my", "your", "his", "its", "our", "their", "mine", "yours", "hers", "ours", "theirs",
  "not", "no", "yes", "all", "some", "any", "none", "each", "every", "both",
  "cat", "dog", "bird", "fish", "tree", "house", "car", "book", "word", "world", "fox",
  "sat", "mat", "hat", "rat", "bat", "fat", "flat", "chat", "that",
  "hello", "world", "good", "bad", "big", "small", "new", "old", "young", "quick", "brown", "lazy",
  "man", "woman", "child", "day", "night", "time", "year", "way", "thing",
  "love", "like", "want", "know", "think", "see", "look", "make", "go", "come",
  "take", "get", "give", "find", "tell", "ask", "use", "try", "leave", "call", "jump", "jumps", "over",
  "model", "data", "learn", "train", "test", "input", "output", "layer", "network",
  "attention", "transformer", "token", "embed", "vector", "matrix", "weight",
  "print", "function", "return", "var", "let", "const",
  ".", ",", "!", "?", "\x27", "\"", "-", ":", ";", "(", ")", "[", "]", "\x7b", "\x7d",
  "0", "1", "2", "3", "4", "5", "6", "7", "8", "9",
  "a", "b", "c", "d", "e", "f", "g", "h", "i", "j", "k", "l", "m",
  "n", "o", "p", "q", "r", "s", "t", "u", "v", "w", "x", "y", "z"]

/-- Lookup `WORD_TO_ID.get(w)`: the JS `Map` built as
`new Map(VOCABULARY.map((word, i) => [word, i]))`, in which a later entry
for the same word overwrites an earlier one — hence the left fold keeping
the last matching index. -/
def wordToId (w : String) : Option ℕ :=
  VOCABULARY.enum.foldl (fun acc p => if p.2 = w then some p.1 else acc) none

/-- A `{ text, id }` token object. -/
structure Token where
  text : String
  id : ℕ
deriving DecidableEq

/-- Map a token text to a `Token`, falling back to the id of `<unk>` when
the word is not in the vocabulary (as the final-token mapping of
`simulateBPE` does). -/
def mkToken (t : String) : Token :=
  { text := t, id := (wordToId t).getD ((wordToId "<unk>").getD 0) }

/-- JS `\w` character class (`[A-Za-z0-9_]`). -/
def isWordChar (c : Char) : Bool :=
  c.isAlpha || c.isDigit || c = '_'

/-- Normalisation `text.toLowerCase().trim()` as a character list: lowercase every
character, then strip leading and trailing whitespace. -/
def normalizeText (text : String) : List Char :=
  ((((text.data.map Char.toLower).dropWhile Char.isWhitespace).reverse.dropWhile
    Char.isWhitespace).reverse)

/-- The regex split `normalized.match(/[\w]+|[^\s\w]/g)` of `tokenize`:
maximal runs of word characters become one part, any other non-whitespace
character becomes a single-character part, whitespace is skipped.  The fuel
argument (instantiated with the list length, an upper bound on the number
of emitted parts plus skipped characters) keeps the recursion structural;
each step consumes at least one character, so the fuel never runs out. -/
def splitPartsF : ℕ → List Char → List String
  | 0, _ => []
  | _, [] => []
  | fuel + 1, c :: rest =>
    if isWordChar c then
      String.mk (c :: rest.takeWhile isWordChar) ::
        splitPartsF fuel (rest.dropWhile isWordChar)
    else if c.isWhitespace then
      splitPartsF fuel rest
    else
      String.mk [c] :: splitPartsF fuel rest

/-- The parts of the regex match, see `splitPartsF`. -/
def splitParts (l : List Char) : List String :=
  splitPartsF l.length l

/-- Tokens emitted for one part in `tokenize`: a whole-word vocabulary
match, or the per-character fallback (unknown characters map to the id of
`<unk>` but keep their own text). -/
def partTokens (part : String) : List Token :=
  match wordToId part with
  | some id => [{ text := part, id := id }]
  | none => part.data.map fun ch => mkToken (String.mk [ch])

/-- Embedding of `tokenize(text)` from `tour.js`. -/
def tokenize (text : String) : List Token :=
  ((splitParts (normalizeText text)).map partTokens).flatten

/-- One recorded step of the BPE merge trace.  The display-only
`description` string of the source object is omitted; all other fields are
kept. -/
structure MergeStep where
  step : ℕ
  tokens : List String
  mergedPair : Option (String × String)
  mergedResult : Option String
  mergedIndex : Option ℕ
  frequency : Option ℕ
deriving DecidableEq

/-- Tokens `t[i]` and `t[i+1]` looked up in the merge table — the body of the
candidate scan `MERGE_MAP.get(currentTokens[i] + '|' + currentTokens[i+1])`
of `simulateBPE`. -/
def matchAt (t : List String) (i : ℕ) : Option MergeRule :=
  match t[i]?, t[i + 1]? with
  | some a, some b => mergeLookup a b
  | _, _ => none

/-- All matching `(rule, index)` candidates of the scan
`for (let i = 0; i < currentTokens.length - 1; i++)`, in scan order. -/
def candidates (t : List String) : List (MergeRule × ℕ) :=
  (List.range (t.length - 1)).filterMap fun i =>
    (matchAt t i).map fun r => (r, i)

/-- The accumulator update of the best-merge scan: the source keeps the
incumbent unless the new candidate's frequency is *strictly* greater
(`rule.frequency > bestMerge.frequency`), so the first-seen maximum wins. -/
def bestStep (best : Option (MergeRule × ℕ)) (c : MergeRule × ℕ) :
    Option (MergeRule × ℕ) :=
  match best with
  | none => some c
  | some (br, bi) => if br.frequency < c.1.frequency then some c else some (br, bi)

/-- The best-merge search of `simulateBPE`: scan candidates left to right,
keeping the first-seen maximum frequency. -/
def findBest (t : List String) : Option (MergeRule × ℕ) :=
  (candidates t).foldl bestStep none

/-- Splice `[...t.slice(0, idx), result, ...t.slice(idx + 2)]`. -/
def applyMergeAt (t : List String) (idx : ℕ) (result : String) : List String :=
  t.take idx ++ result :: t.drop (idx + 2)

/-- The merge loop `while (changed && stepNum < 20)` of `simulateBPE`,
structurally recursive on the fuel `20 - stepNum` (the loop body runs only
while `stepNum < 20` and increments `stepNum` exactly when a merge is
applied, so entering with `stepNum = 1` and fuel `19` is exact).  Returns
the final token list and the recorded merge steps. -/
def bpeLoop : ℕ → List String → ℕ → List String × List MergeStep
  | 0, tokens, _ => (tokens, [])
  | fuel + 1, tokens, stepNum =>
    match findBest tokens with
    | none => (tokens, [])
    | some (r, idx) =>
      let nt := applyMergeAt tokens idx r.result
      let rec0 : MergeStep :=
        { step := stepNum, tokens := nt, mergedPair := some r.pair,
          mergedResult := some r.result, mergedIndex := some idx,
          frequency := some r.frequency }
      let rest := bpeLoop fuel nt (stepNum + 1)
      (rest.1, rec0 :: rest.2)

/-- Result object of `simulateBPE`. -/
structure BPEResult where
  input : String
  mergeSteps : List MergeStep
  finalTokens : List Token
  totalMerges : ℕ
deriving DecidableEq

/-- Embedding of `simulateBPE(text)` from `tour.js`: lowercase + trim, start from the
character sequence, record the initial snapshot, run the merge loop, then
map final tokens to vocabulary ids (unknown words map to the `<unk>` id). -/
def simulateBPE (text : String) : BPEResult :=
  let normalized := normalizeText text
  let chars : List String := normalized.map fun c => String.mk [c]
  let init : MergeStep :=
    { step := 0, tokens := chars, mergedPair := none, mergedResult := none,
      mergedIndex := none, frequency := none }
  let r := bpeLoop 19 chars 1
  let mergeSteps := init :: r.2
  { input := text, mergeSteps := mergeSteps,
    finalTokens := r.1.map mkToken, totalMerges := mergeSteps.length - 1 }

/-- The property claim C4 asserts of each recorded merge step, relative to
the token list `prev` it was produced from: some rule and index were
recorded; that index matches that rule; the rule's frequency is maximal
among all currently matching pairs; earlier-positioned matches are
*strictly* smaller (the strict `>` comparison keeps the first-seen
maximum); the new token list is `prev` with exactly that one merge applied,
which shortens it by exactly one token. -/
def bpeStepOK (prev : List String) (st : MergeStep) : Prop :=
  ∃ rule idx,
    st.mergedPair = some rule.pair ∧
    st.mergedResult = some rule.result ∧
    st.frequency = some rule.frequency ∧
    st.mergedIndex = some idx ∧
    matchAt prev idx = some rule ∧
    (∀ i r', matchAt prev i = some r' → r'.frequency ≤ rule.frequency) ∧
    (∀ i r', matchAt prev i = some r' → i < idx → r'.frequency < rule.frequency) ∧
    st.tokens = applyMergeAt prev idx rule.result ∧
    st.tokens.length + 1 = prev.length

/-- Predicate `bpeStepOK` chained along a trace: each step is produced from the token
list of the previous one. -/
def bpeChainOK : List String → List MergeStep → Prop
  | _, [] => True
  | prev, st :: rest => bpeStepOK prev st ∧ bpeChainOK st.tokens rest

/-!  ## moe-demo.js — sampling pipeline  -/

/-- Descending order on rationals, used for the plain numeric sort
`[...probs].sort((a, b) => b - a)` of `applyTopK`. -/
def descQ : ℚ → ℚ → Prop := fun a b => b ≤ a

instance : DecidableRel descQ := fun a b => inferInstanceAs (Decidable (b ≤ a))

instance : IsTotal ℚ descQ := ⟨fun a b => (le_total a b).symm⟩

instance : IsTrans ℚ descQ := ⟨fun _ _ _ h h2 => le_trans h2 h⟩

/-- Descending order by probability on `(prob, index)` pairs, used for the
stable JS sorts `indexed.sort((a, b) => b.prob - a.prob)` of `applyTopP` and
`routeToken`.  JS array sort is stable, and `List.insertionSort` with a
non-strict relation is the stable sort, so the two agree on ties. -/
def descPair : (ℚ × ℕ) → (ℚ × ℕ) → Prop := fun a b => b.1 ≤ a.1

instance : DecidableRel descPair := fun a b => inferInstanceAs (Decidable (b.1 ≤ a.1))

instance : IsTotal (ℚ × ℕ) descPair := ⟨fun a b => (le_total a.1 b.1).symm⟩

instance : IsTrans (ℚ × ℕ) descPair := ⟨fun _ _ _ h h2 => le_trans h2 h⟩

/-- Embedding of `applyTemperature(logits, temperature)`:
`logits.map(l => l / temperature)`.  Rational division collapses the
division-by-zero path (JS yields signed infinities or `NaN` there), so this
embedding is faithful exactly for `temperature ≠ 0` — the hypothesis under
which the C3 theorem is stated.  The `JSNum`-level `applyTemperatureJ`
below models the zero-temperature path faithfully. -/
def applyTemperature (logits : List ℚ) (temperature : ℚ) : List ℚ :=
  logits.map fun l => l / temperature

/-- Embedding of `applyTemperature` over the full JS number model, faithful
at every temperature including zero (JS division of a positive value by
zero yields `Infinity`). -/
def applyTemperatureJ (logits : List JSNum) (temperature : JSNum) : List JSNum :=
  logits.map fun l => divJ l temperature

/-- Embedding of `applyTopK(probs, k)` from `moe-demo.js`: no-op when `k >= probs.length`;
otherwise the `k`-th largest value is the threshold and everything strictly
below it is zeroed (`p >= threshold ? p : 0`), so boundary ties survive.
For `k = 0` the JS code reads `sorted[-1]`, which is `undefined`, and
`p >= undefined` is false, so every entry is zeroed — modelled by the
explicit zero branch. -/
def applyTopK (probs : List ℚ) (k : ℕ) : List ℚ :=
  if probs.length ≤ k then probs
  else
    match k with
    | 0 => probs.map fun _ => (0 : ℚ)
    | k' + 1 =>
      let sorted := List.insertionSort descQ probs
      let threshold := sorted.getD k' 0
      probs.map fun p => if threshold ≤ p then p else 0

/-- The accumulation loop of `applyTopP`: walk the descending-sorted
`(prob, originalIndex)` pairs; while the running total is still below `p`,
keep the index and add its probability.  (After the first rejection the
running total never changes, so nothing later is kept either — exactly as
in the source, whose loop keeps running but can never again satisfy
`cumulative < p`.) -/
def topPKeep (p : ℚ) : List (ℚ × ℕ) → ℚ → List ℕ
  | [], _ => []
  | pi :: rest, cum =>
    if cum < p then pi.2 :: topPKeep p rest (cum + pi.1) else topPKeep p rest cum

/-- The descending stable sort of the `(prob, index)` pairs built by
`applyTopP` (and, with the same comparator, `routeToken`). -/
def topPSorted (probs : List ℚ) : List (ℚ × ℕ) :=
  List.insertionSort descPair (probs.enum.map fun iv => (iv.2, iv.1))

/-- The kept index set (`keepIndices`) of `applyTopP`. -/
def topPKeepSet (probs : List ℚ) (p : ℚ) : List ℕ :=
  topPKeep p (topPSorted probs) 0

/-- Embedding of `applyTopP(probs, p)` from `moe-demo.js`: sort `(prob, index)` pairs by
descending probability (stable), collect the kept index set, and zero out
every entry whose index was not kept. -/
def applyTopP (probs : List ℚ) (p : ℚ) : List ℚ :=
  probs.enum.map fun iv => if iv.1 ∈ topPKeepSet probs p then iv.2 else 0

/-- Embedding of `normalize(probs)` from `moe-demo.js` (the sampling-pipeline normalizer,
not the L2 `normalize` of `math-utils.js`): divide by the sum, and return
the input unchanged when the sum is exactly `0`. -/
def normalize (probs : List ℚ) : List ℚ :=
  if probs.sum = 0 then probs else probs.map fun x => x / probs.sum

/-- Result record of `computeSamplingDistribution`. -/
structure SamplingResult where
  scaledLogits : List ℚ
  finalProbs : List ℚ
  activeCount : ℕ
deriving DecidableEq

/-- Embedding of `computeSamplingDistribution(baseLogits, temperature, topK, topP)` from
`moe-demo.js`: temperature → softmax → top-k → normalize → top-p →
normalize; `activeCount` counts the strictly positive final entries. -/
def computeSamplingDistribution (E : ℚ → ℚ) (baseLogits : List ℚ)
    (temperature : ℚ) (topK : ℕ) (topP : ℚ) : SamplingResult :=
  let scaledLogits := applyTemperature baseLogits temperature
  let probs1 := softmaxQ E scaledLogits
  let probs2 := applyTopK probs1 topK
  let probs3 := normalize probs2
  let probs4 := applyTopP probs3 topP
  let probs5 := normalize probs4
  { scaledLogits := scaledLogits, finalProbs := probs5,
    activeCount := probs5.countP fun x => 0 < x }

/-!  ## tour.js embeddings and moe-demo.js routing  -/

/-- The irrational-valued primitives used by the embedding/routing layer:
`Math.exp` (via softmax), `Math.sin`, `Math.cos`, and `Math.pow` (for the
sinusoidal positional encoding).  Theorems quantify over them. -/
structure RealFns where
  E : ℚ → ℚ
  Sin : ℚ → ℚ
  Cos : ℚ → ℚ
  Powf : ℚ → ℚ → ℚ

/-- Constant `EMBED_DIM` of `tour.js`. -/
def EMBED_DIM : ℕ := 64

/-- The pre-computed `EMBEDDINGS` table of `tour.js`:
one `randomVector(EMBED_DIM, id * 12345 + 67890)` per vocabulary id. -/
def EMBEDDINGS : List (List ℚ) :=
  VOCABULARY.enum.map fun p => randomVector EMBED_DIM (p.1 * 12345 + 67890)

/-- Embedding of `getEmbedding(tokenId)` from `tour.js`: table lookup for in-range ids,
fresh `randomVector` otherwise. -/
def getEmbedding (tokenId : ℕ) : List ℚ :=
  if tokenId < EMBEDDINGS.length then EMBEDDINGS.getD tokenId []
  else randomVector EMBED_DIM tokenId

/-- Embedding of `getPositionalEncoding(pos, dim)` from `tour.js`:
`angle = pos / 10000^((2 * floor(i/2)) / dim)`; even dimensions get
`sin(angle)`, odd get `cos(angle)`. -/
def getPositionalEncoding (F : RealFns) (pos : ℕ) (dim : ℕ) : List ℚ :=
  (List.range dim).map fun i =>
    let angle := (pos : ℚ) / F.Powf 10000 ((2 * (i / 2) : ℕ) / (dim : ℚ))
    if i % 2 = 0 then F.Sin angle else F.Cos angle

/-- Embedding of `getEmbeddings(tokens)` from `tour.js`: per-position sum of the token
embedding and the positional encoding. -/
def getEmbeddings (F : RealFns) (tokens : List Token) : List (List ℚ) :=
  tokens.enum.map fun p =>
    (getEmbedding p.2.id).zipWith (· + ·) (getPositionalEncoding F p.1 EMBED_DIM)

/-- The fixed router weight matrix of `moe-demo.js`:
`randomMatrix(CONFIG.embedDim, CONFIG.numExperts, 42424242)` with
`embedDim = 64`, `numExperts = 8`. -/
def routerWeights : List (List ℚ) :=
  randomMatrix 64 8 42424242

/-- One normalized expert selection `{ prob, index, weight }`. -/
structure ExpertWeight where
  index : ℕ
  prob : ℚ
  weight : ℚ
deriving DecidableEq

/-- Result of `routeToken` (the redundant `expert1`/`expert2` aliases of
`topExperts[0]`/`topExperts[1]` are omitted). -/
structure Routing where
  allProbs : List ℚ
  topExperts : List ExpertWeight
deriving DecidableEq

/-- Embedding of `routeToken(embedding)` from `moe-demo.js`: router logits, softmax,
stable descending sort of `(prob, index)` pairs, top `CONFIG.topK = 2`
experts, gate weights renormalized over just those two. -/
def routeToken (F : RealFns) (embedding : List ℚ) : Routing :=
  let logits := matvec (transposeM routerWeights) embedding
  let probs := softmaxQ F.E logits
  let indexed := probs.enum.map fun iv => (iv.2, iv.1)
  let sorted := List.insertionSort descPair indexed
  let topExperts := sorted.take 2
  let totalWeight := (topExperts.map fun e => e.1).sum
  { allProbs := probs,
    topExperts := topExperts.map fun e =>
      { index := e.2, prob := e.1, weight := e.1 / totalWeight } }

/-- One entry of `routingResults` in `runMOEDemo`. -/
structure RoutingResult where
  token : Token
  tokenIndex : ℕ
  routing : Routing
deriving DecidableEq

/-- The `loadBalance` record of `runMOEDemo`. -/
structure LoadBalance where
  idealCount : ℚ
  avgImbalance : ℚ
  maxImbalance : ℚ
deriving DecidableEq

/-- Result record of `runMOEDemo` (the static `config` field, a fixed
constant object, is omitted). -/
structure MOEResult where
  tokens : List Token
  routingResults : List RoutingResult
  expertCounts : List ℕ
  expertWeights : List ℚ
  loadBalance : LoadBalance
deriving DecidableEq

/-- The body of `runMOEDemo` after tokenization: routing of every token,
per-expert selection counts and summed gate weights (the source accumulates
both arrays in a single `forEach`; the two folds here accumulate the same
two independent arrays), and load-balance statistics with
`idealCount = numTokens * topK / numExperts`. -/
def moeBody (F : RealFns) (tokens : List Token) : MOEResult :=
  let embeddings := getEmbeddings F tokens
  let routingResults := embeddings.enum.map fun p =>
    { token := tokens.getD p.1 { text := "", id := 0 }, tokenIndex := p.1,
      routing := routeToken F p.2 : RoutingResult }
  let counts := routingResults.foldl (fun acc r =>
      r.routing.topExperts.foldl (fun a e => a.set e.index (a.getD e.index 0 + 1)) acc)
      (List.replicate 8 (0 : ℕ))
  let weights := routingResults.foldl (fun acc r =>
      r.routing.topExperts.foldl (fun a e => a.set e.index (a.getD e.index 0 + e.weight)) acc)
      (List.replicate 8 (0 : ℚ))
  let idealCount : ℚ := ((tokens.length : ℚ) * 2) / 8
  let loadImbalance := counts.map fun c => |(c : ℚ) - idealCount|
  { tokens := tokens, routingResults := routingResults, expertCounts := counts,
    expertWeights := weights,
    loadBalance := { idealCount := idealCount,
                     avgImbalance := loadImbalance.sum / 8,
                     maxImbalance := maxQ loadImbalance } }

/-- Embedding of `runMOEDemo(text)` from `moe-demo.js`: tokenize, silently truncate to
the first 10 tokens, return `null` (here `none`) for an empty tokenization,
otherwise the full routing/statistics record. -/
def runMOEDemo (F : RealFns) (text : String) : Option MOEResult :=
  let tokens := (tokenize text).take 10
  if tokens.length = 0 then none else some (moeBody F tokens)

/-- The finite entries of a `JSNum` list, in order. -/
def finVals (l : List JSNum) : List ℚ :=
  l.filterMap fun x => match x with | .fin q => some q | _ => none

/-- The exponential term a `JSNum` entry contributes after subtracting the
finite maximum `M`: `-Infinity` positions contribute `exp(-Infinity) = 0`,
finite positions `E (q - M)` (other constructors cannot occur on the inputs
where this is used). -/
def softExpTerm (E : ℚ → ℚ) (M : ℚ) : JSNum → ℚ
  | .fin q => E (q - M)
  | _ => 0

/-- Rational companion of `softmax` on a list whose entries are `-Infinity`
or finite, with at least one finite entry: the finite values that `softmax`
produces at each position (`-Infinity` positions exponentiate to `0`).
This is a proof device, not a source translation — the theorem
`softmax_eq_softCore` proves that the source-translated `softmax` returns
exactly these values (wrapped in `JSNum.fin`) on such inputs. -/
def softCore (E : ℚ → ℚ) (l : List JSNum) : List ℚ :=
  let exps := l.map (softExpTerm E (maxQ (finVals l)))
  exps.map fun x => x / exps.sum

/-!  ## Concrete stand-ins for the irrational primitives (witness data)  -/

/-- A computable, strictly positive, monotone rational stand-in for
`Math.exp`, used to instantiate theorems at concrete inputs:
`q < 0 ↦ 1 / (1 - q)`, `q ≥ 0 ↦ 1 + q`.  Like the real exponential it is
everywhere positive, monotone, and maps `0` to `1`. -/
def qexp (q : ℚ) : ℚ :=
  if q < 0 then 1 / (1 - q) else 1 + q

/-- Concrete `RealFns` used by witnesses (sin/cos/pow values are irrelevant
to the statements instantiated with it). -/
def dummyFns : RealFns :=
  { E := qexp, Sin := fun _ => 0, Cos := fun _ => 0, Powf := fun _ _ => 1 }

/-- Witness matrices: the spec's attention example `Q = K = [[1,0],[0,1]]`. -/
def Q0 : List (List ℚ) := [[1, 0], [0, 1]]

/-- Witness matrix: the spec's attention example `V = [[10,0],[0,20]]`. -/
def V0 : List (List ℚ) := [[10, 0], [0, 20]]

/-- Witness score matrix for the causal-mask clause. -/
def S0 : List (List JSNum) := [[JSNum.nan, JSNum.nan], [JSNum.nan, JSNum.nan]]

/-!  # Theorems  -/

theorem qexp_pos (q : ℚ) : 0 < qexp q := by
  unfold qexp
  split
  · have h1 : (0 : ℚ) < 1 - q := by linarith
    positivity
  · linarith [not_lt.mp (by assumption : ¬ q < 0)]

theorem qexp_nonneg (q : ℚ) : 0 ≤ qexp q :=
  le_of_lt (qexp_pos q)

theorem qexp_mono : ∀ a b : ℚ, a ≤ b → qexp a ≤ qexp b := by
  intro a b hab
  unfold qexp
  split
  · split
    · have ha : (0 : ℚ) < 1 - a := by linarith
      have hb : (0 : ℚ) < 1 - b := by linarith
      rw [div_le_div_iff₀ ha hb]
      linarith
    · have hb : (0 : ℚ) ≤ b := le_of_not_lt (by assumption)
      have ha : (0 : ℚ) < 1 - a := by linarith
      have : 1 / (1 - a) ≤ 1 := by
        rw [div_le_one ha]; linarith
      linarith
  · split
    · linarith
    · linarith

/-!  ## C1 — empty-input behaviour of softmax / applyTopK / applyTopP  -/

/-- C1: the spec requires `softmax`, `applyTopK` and `applyTopP` to signal
an invalid-input error on an empty input array.  The code does not: this
theorem evaluates all three at the failing input `[]` and shows each
returns an ordinary (empty, respectively unchanged) numeric result — the
`JSNum`-level `softmax` returns `[]`, its finite specialisation returns
`[]`, `applyTopK` returns its input `[]` unchanged (the `k >= probs.length`
no-op branch), and `applyTopP` returns `[]`. -/
theorem c1_empty_input_no_error (E : ℚ → ℚ) (k : ℕ) (p : ℚ) :
    softmax E [] = [] ∧ softmaxQ E [] = [] ∧
    applyTopK [] k = [] ∧ applyTopP [] p = [] := by
  refine ⟨rfl, rfl, ?_, rfl⟩
  simp [applyTopK]

/-!  ## C9 — idempotence of the sampling-pipeline normalize  -/

/-- Auxiliary: nonnegative entries summing to zero are all zero. -/
theorem sum_zero_all_zero {l : List ℚ} (hnn : ∀ x ∈ l, 0 ≤ x)
    (h0 : l.sum = 0) : ∀ x ∈ l, x = 0 := by
  induction l with
  | nil => intro x hx; cases hx
  | cons a t ih =>
    have ha : 0 ≤ a := hnn a (by simp)
    have ht : 0 ≤ t.sum :=
      List.sum_nonneg fun x hx => hnn x (by simp [hx])
    have hsum : a + t.sum = 0 := by simpa using h0
    have ha0 : a = 0 := by linarith
    have ht0 : t.sum = 0 := by linarith
    intro x hx
    rcases List.mem_cons.mp hx with rfl | hx
    · exact ha0
    · exact ih (fun y hy => hnn y (by simp [hy])) ht0 x hx

/-- Sum of a list after dividing every entry by a constant. -/
theorem sum_map_div (l : List ℚ) (s : ℚ) :
    (l.map fun x => x / s).sum = l.sum / s := by
  induction l with
  | nil => simp
  | cons a t ih => simp [ih, add_div]

/-- C9: `normalize` divides by the sum, returns the input unchanged when the
sum is exactly 0, and is idempotent on any non-all-zero vector:
`normalize (normalize p) = normalize p`. -/
theorem c9_normalize_idempotent (probs : List ℚ) (_h : ∃ x ∈ probs, x ≠ 0) :
    (probs.sum = 0 → normalize probs = probs) ∧
    (probs.sum ≠ 0 → normalize probs = probs.map fun x => x / probs.sum) ∧
    normalize (normalize probs) = normalize probs := by
  refine ⟨fun h0 => by simp [normalize, h0], fun h0 => by simp [normalize, h0], ?_⟩
  by_cases h0 : probs.sum = 0
  · simp [normalize, h0]
  · have hs : (probs.map fun x => x / probs.sum).sum = 1 := by
      rw [sum_map_div, div_self h0]
    have h1 : normalize probs = probs.map fun x => x / probs.sum := by
      simp [normalize, h0]
    rw [h1]
    simp [normalize, hs]

/-- Witness for C9 at the concrete non-all-zero vector `[1, 1]`. -/
theorem c9_normalize_idempotent_witness :
    (∃ x ∈ [(1 : ℚ), 1], x ≠ 0) ∧
    (([(1 : ℚ), 1].sum = 0 → normalize [(1 : ℚ), 1] = [(1 : ℚ), 1]) ∧
     ([(1 : ℚ), 1].sum ≠ 0 →
        normalize [(1 : ℚ), 1] = [(1 : ℚ), 1].map fun x => x / [(1 : ℚ), 1].sum) ∧
     normalize (normalize [(1 : ℚ), 1]) = normalize [(1 : ℚ), 1]) :=
  ⟨⟨1, by norm_num, by norm_num⟩,
   c9_normalize_idempotent [(1 : ℚ), 1] ⟨1, by norm_num, by norm_num⟩⟩

/-!  ## C5 — literal BPE test vectors  -/

set_option maxRecDepth 100000 in
/-- C5: the three literal test vectors of the spec, evaluated on the model:
`simulateBPE("the")` ends in `["the"]` after 2 merges,
`simulateBPE("standing")` ends in `["st","an","d","ing"]` after 4 merges,
and `simulateBPE("xyz")` ends in `["x","y","z"]` after 0 merges. -/
theorem c5_simulateBPE_test_vectors :
    ((simulateBPE "the").finalTokens.map Token.text = ["the"] ∧
      (simulateBPE "the").totalMerges = 2) ∧
    ((simulateBPE "standing").finalTokens.map Token.text = ["st", "an", "d", "ing"] ∧
      (simulateBPE "standing").totalMerges = 4) ∧
    ((simulateBPE "xyz").finalTokens.map Token.text = ["x", "y", "z"] ∧
      (simulateBPE "xyz").totalMerges = 0) := by
  decide

/-!  ## C3 — sampling pipeline invariants  -/

theorem softmaxQ_length (E : ℚ → ℚ) (l : List ℚ) :
    (softmaxQ E l).length = l.length := by
  simp [softmaxQ]

theorem softmaxQ_nonneg (E : ℚ → ℚ) (hE : ∀ q, 0 ≤ E q) (l : List ℚ) :
    ∀ x ∈ softmaxQ E l, 0 ≤ x := by
  intro x hx
  simp only [softmaxQ] at hx
  obtain ⟨y, hy, rfl⟩ := List.mem_map.mp hx
  refine div_nonneg ?_ (List.sum_nonneg ?_)
  · obtain ⟨z, _, rfl⟩ := List.mem_map.mp hy
    exact hE _
  · intro w hw
    obtain ⟨u, _, rfl⟩ := List.mem_map.mp hw
    exact hE _

theorem applyTopK_nonneg (l : List ℚ) (k : ℕ) (hnn : ∀ x ∈ l, 0 ≤ x) :
    ∀ x ∈ applyTopK l k, 0 ≤ x := by
  intro x hx
  unfold applyTopK at hx
  split at hx
  · exact hnn x hx
  · match k, hx with
    | 0, hx =>
      obtain ⟨y, _, rfl⟩ := List.mem_map.mp hx
      exact le_refl 0
    | k' + 1, hx =>
      obtain ⟨y, hy, rfl⟩ := List.mem_map.mp hx
      split
      · exact hnn y hy
      · exact le_refl 0

theorem normalize_nonneg (l : List ℚ) (hnn : ∀ x ∈ l, 0 ≤ x) :
    ∀ x ∈ normalize l, 0 ≤ x := by
  intro x hx
  unfold normalize at hx
  split at hx
  · exact hnn x hx
  · obtain ⟨y, hy, rfl⟩ := List.mem_map.mp hx
    exact div_nonneg (hnn y hy) (List.sum_nonneg hnn)

/-- Every entry of `applyTopP` is either `0` or an entry of the input. -/
theorem applyTopP_mem (l : List ℚ) (p : ℚ) :
    ∀ x ∈ applyTopP l p, x = 0 ∨ x ∈ l := by
  intro x hx
  simp only [applyTopP] at hx
  obtain ⟨iv, hiv, rfl⟩ := List.mem_map.mp hx
  split
  · exact Or.inr (List.getElem?_mem (List.mem_enum_iff_getElem?.mp hiv))
  · exact Or.inl rfl

theorem applyTopP_nonneg (l : List ℚ) (p : ℚ) (hnn : ∀ x ∈ l, 0 ≤ x) :
    ∀ x ∈ applyTopP l p, 0 ≤ x := by
  intro x hx
  rcases applyTopP_mem l p x hx with rfl | hxl
  · exact le_refl 0
  · exact hnn x hxl

/-- Normalisation does not change the number of strictly positive entries of
a vector with nonnegative entries. -/
theorem normalize_countP (l : List ℚ) (hnn : ∀ x ∈ l, 0 ≤ x) :
    (normalize l).countP (fun x => 0 < x) = l.countP (fun x => 0 < x) := by
  unfold normalize
  split
  · rfl
  · have hs : 0 < l.sum :=
      lt_of_le_of_ne (List.sum_nonneg hnn) (Ne.symm (by assumption))
    rw [List.countP_map]
    refine List.countP_congr fun x _ => ?_
    simp only [Function.comp_apply, decide_eq_true_eq]
    exact div_pos_iff_of_pos_right hs

/-- Top-p filtering can only zero entries, so it does not increase the number
of strictly positive entries. -/
theorem applyTopP_countP (l : List ℚ) (p : ℚ) :
    (applyTopP l p).countP (fun x => 0 < x) ≤ l.countP (fun x => 0 < x) := by
  conv_rhs => rw [← List.enum_map_snd l]
  simp only [applyTopP, List.countP_map]
  refine List.countP_mono_left fun iv _ h => ?_
  simp only [Function.comp_apply, decide_eq_true_eq] at h ⊢
  split at h
  · exact h
  · exact absurd h (lt_irrefl 0)

/-- After `applyTopK` with `0 < k < l.length`, every strictly positive
entry is at least the `k`-th largest value of the input. -/
theorem applyTopK_countP_le (l : List ℚ) (k' : ℕ) (h : k' + 1 < l.length) :
    (applyTopK l (k' + 1)).countP (fun x => 0 < x) ≤
      l.countP (fun x => (List.insertionSort descQ l).getD k' 0 ≤ x) := by
  unfold applyTopK
  rw [if_neg (by omega)]
  rw [List.countP_map]
  refine List.countP_mono_left fun x _ hx => ?_
  simp only [Function.comp_apply, decide_eq_true_eq] at hx ⊢
  split at hx
  · assumption
  · exact absurd hx (lt_irrefl 0)

/-- In a duplicate-free list, at most `k' + 1` entries are `≥` the value at
index `k'` of its descending sort. -/
theorem sorted_count_le (l : List ℚ) (hnd : l.Nodup) (k' : ℕ) (h : k' < l.length) :
    l.countP (fun x => (List.insertionSort descQ l).getD k' 0 ≤ x) ≤ k' + 1 := by
  have hperm := List.perm_insertionSort descQ l
  have hlen : (List.insertionSort descQ l).length = l.length :=
    List.length_insertionSort descQ l
  have hk : k' < (List.insertionSort descQ l).length := by omega
  set s := List.insertionSort descQ l with hs
  have hsorted : List.Sorted descQ s := List.sorted_insertionSort descQ l
  have hnds : s.Nodup := (List.Perm.nodup_iff hperm).mpr hnd
  have hthr : s.getD k' 0 = s.get ⟨k', hk⟩ := by
    rw [List.getD_eq_getElem s 0 hk]
    simp
  rw [← List.Perm.countP_eq _ hperm]
  have hsplit : s.take (k' + 1) ++ s.drop (k' + 1) = s := List.take_append_drop _ s
  have hmemtake : s.get ⟨k', hk⟩ ∈ s.take (k' + 1) := by
    have hlt : k' < (s.take (k' + 1)).length := by
      rw [List.length_take]; omega
    have : (s.take (k' + 1)).get ⟨k', hlt⟩ = s.get ⟨k', hk⟩ := by
      simp [List.getElem_take]
    rw [← this]
    exact List.get_mem _ k' hlt
  have hpair : ∀ x ∈ s.take (k' + 1), ∀ y ∈ s.drop (k' + 1), descQ x y := by
    have := hsorted
    rw [← hsplit] at this
    exact fun x hx y hy => (List.pairwise_append.mp this).2.2 x hx y hy
  have hdisj : ∀ y ∈ s.drop (k' + 1), y ∉ s.take (k' + 1) := by
    have := hnds
    rw [← hsplit] at this
    have hdj := (List.nodup_append.mp this).2.2
    intro y hy hyt
    exact hdj hyt hy
  calc s.countP (fun x => s.getD k' 0 ≤ x)
      = (s.take (k' + 1) ++ s.drop (k' + 1)).countP
        (fun x => s.getD k' 0 ≤ x) := by rw [hsplit]
    _ = (s.take (k' + 1)).countP (fun x => s.getD k' 0 ≤ x) +
        (s.drop (k' + 1)).countP (fun x => s.getD k' 0 ≤ x) := List.countP_append _ _ _
    _ ≤ (k' + 1) + 0 := by
        refine Nat.add_le_add ?_ ?_
        · calc (s.take (k' + 1)).countP (fun x => s.getD k' 0 ≤ x)
              ≤ (s.take (k' + 1)).length := List.countP_le_length _
            _ ≤ k' + 1 := by rw [List.length_take]; omega
        · refine Nat.le_of_eq (List.countP_eq_zero.mpr fun y hy => ?_)
          simp only [decide_eq_true_eq]
          have hle : y ≤ s.get ⟨k', hk⟩ := hpair _ hmemtake y hy
          have hne : y ≠ s.get ⟨k', hk⟩ := by
            intro heq
            exact hdisj y hy (heq ▸ hmemtake)
          rw [hthr]
          exact not_le.mpr (lt_of_le_of_ne hle hne)
    _ = k' + 1 := Nat.add_zero _

/-- The activeCount bound of C3, valid when the softmax output has no
duplicate values (ties at the top-k boundary are the documented exception). -/
theorem activeCount_le_topK (E : ℚ → ℚ) (hE : ∀ q, 0 ≤ E q)
    (logits : List ℚ) (T : ℚ) (k : ℕ) (p : ℚ)
    (hnd : (softmaxQ E (applyTemperature logits T)).Nodup) :
    (computeSamplingDistribution E logits T k p).activeCount ≤ k := by
  have hact : (computeSamplingDistribution E logits T k p).activeCount =
      (normalize (applyTopP
        (normalize (applyTopK (softmaxQ E (applyTemperature logits T)) k)) p)).countP
        (fun x => 0 < x) := rfl
  rw [hact]
  set probs1 := softmaxQ E (applyTemperature logits T) with hp1
  have h1 : ∀ x ∈ probs1, 0 ≤ x := softmaxQ_nonneg E hE _
  have h2 : ∀ x ∈ applyTopK probs1 k, 0 ≤ x := applyTopK_nonneg _ k h1
  have h3 : ∀ x ∈ normalize (applyTopK probs1 k), 0 ≤ x := normalize_nonneg _ h2
  have h4 : ∀ x ∈ applyTopP (normalize (applyTopK probs1 k)) p, 0 ≤ x :=
    applyTopP_nonneg _ p h3
  rw [normalize_countP _ h4]
  calc (applyTopP (normalize (applyTopK probs1 k)) p).countP (fun x => 0 < x)
      ≤ (normalize (applyTopK probs1 k)).countP (fun x => 0 < x) :=
        applyTopP_countP _ p
    _ = (applyTopK probs1 k).countP (fun x => 0 < x) := normalize_countP _ h2
    _ ≤ k := by
        by_cases hlen : probs1.length ≤ k
        · rw [applyTopK.eq_def, if_pos hlen]
          exact le_trans (List.countP_le_length _) hlen
        · match k with
          | 0 =>
            rw [applyTopK.eq_def, if_neg hlen]
            refine Nat.le_of_eq (List.countP_eq_zero.mpr fun a ha => ?_)
            obtain ⟨y, _, rfl⟩ := List.mem_map.mp ha
            simp
          | k' + 1 =>
            have hk : k' + 1 < probs1.length := by omega
            exact le_trans (applyTopK_countP_le probs1 k' hk)
              (sorted_count_le probs1 hnd k' (by omega))

/-- Normalising a nonnegative, not-all-zero vector makes it sum to exactly 1. -/
theorem normalize_sum_one (l : List ℚ) (hnn : ∀ x ∈ l, 0 ≤ x)
    (hne : ∃ x ∈ l, x ≠ 0) : (normalize l).sum = 1 := by
  obtain ⟨x, hx, hx0⟩ := hne
  have hxpos : 0 < x := lt_of_le_of_ne (hnn x hx) (Ne.symm hx0)
  have hsum : 0 < l.sum := lt_of_lt_of_le hxpos (List.single_le_sum hnn x hx)
  rw [normalize, if_neg (ne_of_gt hsum)]
  rw [sum_map_div, div_self (ne_of_gt hsum)]

/-- C3, corrected: for every *nonzero* temperature — at temperature 0 the
program divides by zero, `softmax` turns the resulting infinities into
`NaN`, and `finalProbs` can be all-`NaN` rather than a distribution (see
`c3_temperature_zero_nan`), which is also where the rational model of
`applyTemperature` stops being faithful — the claimed bound
`activeCount ≤ topK` holds whenever the post-temperature softmax
probabilities have no duplicate values (the strict claim fails when
duplicates tie at the top-k boundary, see
`c3_activeCount_counterexample`); and whenever at least one entry of
`finalProbs` is nonzero, `finalProbs` sums to 1 within tolerance `1e-9`
(in this exact-arithmetic model the sum is exactly 1). -/
theorem c3_sampling_invariants (E : ℚ → ℚ) (hE : ∀ q, 0 ≤ E q)
    (logits : List ℚ) (T : ℚ) (k : ℕ) (p : ℚ) (_hT : T ≠ 0) :
    ((softmaxQ E (applyTemperature logits T)).Nodup →
      (computeSamplingDistribution E logits T k p).activeCount ≤ k) ∧
    ((∃ x ∈ (computeSamplingDistribution E logits T k p).finalProbs, x ≠ 0) →
      |(computeSamplingDistribution E logits T k p).finalProbs.sum - 1| ≤
        1 / 1000000000) := by
  constructor
  · exact fun hnd => activeCount_le_topK E hE logits T k p hnd
  · intro hne
    have hfin : (computeSamplingDistribution E logits T k p).finalProbs =
        normalize (applyTopP
          (normalize (applyTopK (softmaxQ E (applyTemperature logits T)) k)) p) := rfl
    rw [hfin] at hne ⊢
    set l4 := applyTopP
      (normalize (applyTopK (softmaxQ E (applyTemperature logits T)) k)) p with hl4
    have h4 : ∀ x ∈ l4, 0 ≤ x := by
      rw [hl4]
      exact applyTopP_nonneg _ p (normalize_nonneg _
        (applyTopK_nonneg _ k (softmaxQ_nonneg E hE _)))
    have hne4 : ∃ x ∈ l4, x ≠ 0 := by
      by_cases hz : l4.sum = 0
      · obtain ⟨x, hx, hx0⟩ := hne
        rw [normalize, if_pos hz] at hx
        exact ⟨x, hx, hx0⟩
      · by_contra hc
        push_neg at hc
        exact hz (List.sum_eq_zero hc)
    rw [normalize_sum_one l4 h4 hne4]
    norm_num

/-- Counterexample to C3 as stated: with logits `[0, 0]`, temperature 1,
`topK = 1`, `topP = 1`, the two softmax probabilities tie at `1/2`, the
top-k threshold (the 1st largest value) keeps both, and `activeCount = 2`,
violating `activeCount ≤ topK = 1`. -/
theorem c3_activeCount_counterexample :
    (computeSamplingDistribution qexp [0, 0] 1 1 1).activeCount = 2 ∧
    ¬ (computeSamplingDistribution qexp [0, 0] 1 1 1).activeCount ≤ 1 := by
  have h : (computeSamplingDistribution qexp [0, 0] 1 1 1).activeCount = 2 := by
    norm_num [computeSamplingDistribution, applyTemperature, softmaxQ, maxQ, applyTopK,
      normalize, applyTopP, topPKeepSet, topPSorted, topPKeep, List.insertionSort,
      List.orderedInsert, qexp, descQ, descPair, List.countP, List.countP.go,
      List.enum, List.enumFrom]
  exact ⟨h, by rw [h]; omega⟩

/-- Faithful `JSNum`-level trace of the temperature-0 path excluded by the
amended C3: `applyTemperature([1], 0)` computes `1 / 0 = Infinity`, and
`softmax` of `[Infinity]` computes `Infinity - Infinity = NaN` throughout,
so the program's probabilities at temperature 0 are `NaN` — not a
distribution summing to 1. -/
theorem c3_temperature_zero_nan :
    applyTemperatureJ [JSNum.fin 1] (JSNum.fin 0) = [JSNum.pinf] ∧
    softmax qexp (applyTemperatureJ [JSNum.fin 1] (JSNum.fin 0)) = [JSNum.nan] ∧
    JSNum.nan ≠ JSNum.fin 1 := by
  refine ⟨?_, ?_, fun h => JSNum.noConfusion h⟩
  · decide
  · decide

/-- Witness for C3 at the concrete instance `E = qexp`,
`logits = [0, 1]`, `T = 1`, `topK = 1`, `topP = 1`. -/
theorem c3_sampling_invariants_witness :
    (∀ q : ℚ, 0 ≤ qexp q) ∧ ((1 : ℚ) ≠ 0) ∧
    (((softmaxQ qexp (applyTemperature [0, 1] 1)).Nodup →
        (computeSamplingDistribution qexp [0, 1] 1 1 1).activeCount ≤ 1) ∧
      ((∃ x ∈ (computeSamplingDistribution qexp [0, 1] 1 1 1).finalProbs, x ≠ 0) →
        |(computeSamplingDistribution qexp [0, 1] 1 1 1).finalProbs.sum - 1| ≤
          1 / 1000000000)) :=
  ⟨qexp_nonneg, by norm_num,
    c3_sampling_invariants qexp qexp_nonneg [0, 1] 1 1 1 (by norm_num)⟩

/-!  ## C6 — nucleus (top-p) filtering  -/

/-- Every index kept by the `topPKeep` loop is the index component of some
scanned pair. -/
theorem topPKeep_subset (p : ℚ) (s : List (ℚ × ℕ)) (c : ℚ) :
    ∀ i ∈ topPKeep p s c, i ∈ s.map Prod.snd := by
  induction s generalizing c with
  | nil => intro i hi; cases hi
  | cons x rest ih =>
    intro i hi
    rw [topPKeep] at hi
    split at hi
    · rcases List.mem_cons.mp hi with rfl | hi
      · simp
      · simp only [List.map_cons, List.mem_cons]
        exact Or.inr (ih _ i hi)
    · simp only [List.map_cons, List.mem_cons]
      exact Or.inr (ih _ i hi)

/-- Position-level characterisation of the `topPKeep` loop: when the pair
probabilities are nonnegative and the index components are duplicate-free,
the index at position `j` of the scanned list is kept iff the running
total before it — the sum of the probabilities of the pairs before
position `j` plus the starting accumulator — is still below `p`. -/
theorem topPKeep_mem_iff (p : ℚ) (s : List (ℚ × ℕ)) (c : ℚ)
    (hnn : ∀ x ∈ s, 0 ≤ x.1) (hinj : (s.map Prod.snd).Nodup)
    (j : ℕ) (hj : j < s.length) :
    (s.get ⟨j, hj⟩).2 ∈ topPKeep p s c ↔ c + ((s.take j).map Prod.fst).sum < p := by
  induction s generalizing c j with
  | nil => cases hj
  | cons x rest ih =>
    have hx : 0 ≤ x.1 := hnn x (by simp)
    have hnr : ∀ y ∈ rest, 0 ≤ y.1 := fun y hy => hnn y (by simp [hy])
    have hnotin : x.2 ∉ rest.map Prod.snd := by
      have := hinj
      rw [List.map_cons, List.nodup_cons] at this
      exact this.1
    have hinr : (rest.map Prod.snd).Nodup := by
      have := hinj
      rw [List.map_cons, List.nodup_cons] at this
      exact this.2
    rw [topPKeep]
    match j with
    | 0 =>
      simp only [List.get, List.take_zero, List.map_nil, List.sum_nil, add_zero]
      split
      · exact iff_of_true (List.mem_cons_self _ _) (by assumption)
      · constructor
        · intro hmem
          exact absurd (topPKeep_subset p rest c x.2 hmem) hnotin
        · intro hlt
          exact absurd hlt (by assumption)
    | j' + 1 =>
      have hj' : j' < rest.length := by simpa using hj
      have hget : ((x :: rest).get ⟨j' + 1, hj⟩) = rest.get ⟨j', hj'⟩ := rfl
      have hsum : (((x :: rest).take (j' + 1)).map Prod.fst).sum =
          x.1 + ((rest.take j').map Prod.fst).sum := by
        simp
      split
      · rw [hget]
        have hne : (rest.get ⟨j', hj'⟩).2 ≠ x.2 := by
          intro heq
          exact hnotin (heq ▸ List.mem_map_of_mem Prod.snd (rest.get_mem j' hj'))
        constructor
        · intro hmem
          rcases List.mem_cons.mp hmem with heq | hmem
          · exact absurd heq hne
          · have := (ih (c + x.1) hnr hinr j' hj').mp hmem
            rw [hsum]
            linarith
        · intro hlt
          refine List.mem_cons_of_mem _ ?_
          refine (ih (c + x.1) hnr hinr j' hj').mpr ?_
          rw [hsum] at hlt
          linarith
      · have hcp : ¬ c < p := by assumption
        rw [hget]
        constructor
        · intro hmem
          have := (ih c hnr hinr j' hj').mp hmem
          have hpre : 0 ≤ ((rest.take j').map Prod.fst).sum :=
            List.sum_nonneg fun y hy => by
              obtain ⟨z, hz, rfl⟩ := List.mem_map.mp hy
              exact hnr z (List.mem_of_mem_take hz)
          linarith
        · intro hlt
          have hpre : 0 ≤ (((x :: rest).take (j' + 1)).map Prod.fst).sum :=
            List.sum_nonneg fun y hy => by
              obtain ⟨z, hz, rfl⟩ := List.mem_map.mp hy
              exact hnn z (List.mem_of_mem_take hz)
          linarith

/-- The sorted pair list of `applyTopP` has nonnegative probabilities when
the input does. -/
theorem topPSorted_nonneg (probs : List ℚ) (hnn : ∀ x ∈ probs, 0 ≤ x) :
    ∀ x ∈ topPSorted probs, 0 ≤ x.1 := by
  intro x hx
  have hperm := List.perm_insertionSort descPair (probs.enum.map fun iv => (iv.2, iv.1))
  have hx2 : x ∈ probs.enum.map fun iv => (iv.2, iv.1) := hperm.mem_iff.mp hx
  obtain ⟨iv, hiv, rfl⟩ := List.mem_map.mp hx2
  exact hnn iv.2 (List.getElem?_mem (List.mem_enum_iff_getElem?.mp hiv))

/-- The index components of the sorted pair list are exactly a permutation
of `0, …, probs.length - 1`, hence duplicate-free. -/
theorem topPSorted_snd_nodup (probs : List ℚ) :
    ((topPSorted probs).map Prod.snd).Nodup := by
  have hperm := List.perm_insertionSort descPair (probs.enum.map fun iv => (iv.2, iv.1))
  have hperm2 := hperm.map Prod.snd
  refine hperm2.nodup_iff.mpr ?_
  have : ((probs.enum.map fun iv => (iv.2, iv.1)).map Prod.snd) = probs.enum.map Prod.fst := by
    rw [List.map_map]
    rfl
  rw [this, List.enum_map_fst]
  exact List.nodup_range _

theorem topPSorted_length (probs : List ℚ) :
    (topPSorted probs).length = probs.length := by
  simp [topPSorted, List.length_insertionSort]

/-- C6, corrected: `applyTopP` keeps exactly the entries reached while the
running total before them is below `p` and zeroes all others; the nucleus
contains the top entry whenever `p > 0` (for `p ≤ 0` the kept set is empty,
contrary to the unconditional claim — see `c6_applyTopP_counterexample`);
and the entry that crosses the threshold is the last one included. -/
theorem c6_applyTopP_spec (probs : List ℚ) (p : ℚ) (hnn : ∀ x ∈ probs, 0 ≤ x) :
    ((applyTopP probs p).length = probs.length) ∧
    (∀ i (hi : i < probs.length) (hi' : i < (applyTopP probs p).length),
      (applyTopP probs p).get ⟨i, hi'⟩ =
        if i ∈ topPKeepSet probs p then probs.get ⟨i, hi⟩ else 0) ∧
    (∀ j (hj : j < (topPSorted probs).length),
      ((topPSorted probs).get ⟨j, hj⟩).2 ∈ topPKeepSet probs p ↔
        (((topPSorted probs).take j).map Prod.fst).sum < p) ∧
    (∀ h0 : 0 < (topPSorted probs).length, 0 < p →
      ((topPSorted probs).get ⟨0, h0⟩).2 ∈ topPKeepSet probs p) ∧
    (∀ j (hj : j + 1 < (topPSorted probs).length),
      p ≤ (((topPSorted probs).take (j + 1)).map Prod.fst).sum →
        ((topPSorted probs).get ⟨j + 1, hj⟩).2 ∉ topPKeepSet probs p) := by
  have hchar : ∀ j (hj : j < (topPSorted probs).length),
      ((topPSorted probs).get ⟨j, hj⟩).2 ∈ topPKeepSet probs p ↔
        (((topPSorted probs).take j).map Prod.fst).sum < p := by
    intro j hj
    have := topPKeep_mem_iff p (topPSorted probs) 0
      (topPSorted_nonneg probs hnn) (topPSorted_snd_nodup probs) j hj
    rw [zero_add] at this
    exact this
  refine ⟨?_, ?_, hchar, ?_, ?_⟩
  · simp [applyTopP]
  · intro i hi hi'
    have hlen : i < probs.enum.length := by simpa using hi
    simp only [applyTopP, List.get_eq_getElem, List.getElem_map, List.getElem_enum]
  · intro h0 hp
    refine (hchar 0 h0).mpr ?_
    simpa using hp
  · intro j hj hcross hmem
    have := (hchar (j + 1) hj).mp hmem
    linarith

/-- Counterexample to the unconditional top-entry clause of C6: with
`p = 0` the running total `0` is not below `p`, so nothing is kept and even
the top entry (value `1/2`) is zeroed. -/
theorem c6_applyTopP_counterexample :
    applyTopP [(1 : ℚ) / 2, 1 / 2] 0 = [0, 0] ∧ ((1 : ℚ) / 2 ≠ 0) := by
  constructor
  · norm_num [applyTopP, topPKeepSet, topPSorted, topPKeep, List.insertionSort,
      List.orderedInsert, descPair, List.enum, List.enumFrom]
  · norm_num

/-- Witness for C6 at the concrete probability vector `[1/2, 1/4, 1/4]`
with `p = 3/5`. -/
theorem c6_applyTopP_spec_witness :
    (∀ x ∈ [(1 : ℚ) / 2, 1 / 4, 1 / 4], 0 ≤ x) ∧
    (((applyTopP [(1 : ℚ) / 2, 1 / 4, 1 / 4] (3 / 5)).length =
        [(1 : ℚ) / 2, 1 / 4, 1 / 4].length) ∧
      (∀ i (hi : i < [(1 : ℚ) / 2, 1 / 4, 1 / 4].length)
          (hi' : i < (applyTopP [(1 : ℚ) / 2, 1 / 4, 1 / 4] (3 / 5)).length),
        (applyTopP [(1 : ℚ) / 2, 1 / 4, 1 / 4] (3 / 5)).get ⟨i, hi'⟩ =
          if i ∈ topPKeepSet [(1 : ℚ) / 2, 1 / 4, 1 / 4] (3 / 5) then
            [(1 : ℚ) / 2, 1 / 4, 1 / 4].get ⟨i, hi⟩ else 0) ∧
      (∀ j (hj : j < (topPSorted [(1 : ℚ) / 2, 1 / 4, 1 / 4]).length),
        ((topPSorted [(1 : ℚ) / 2, 1 / 4, 1 / 4]).get ⟨j, hj⟩).2 ∈
            topPKeepSet [(1 : ℚ) / 2, 1 / 4, 1 / 4] (3 / 5) ↔
          (((topPSorted [(1 : ℚ) / 2, 1 / 4, 1 / 4]).take j).map Prod.fst).sum < 3 / 5) ∧
      (∀ h0 : 0 < (topPSorted [(1 : ℚ) / 2, 1 / 4, 1 / 4]).length, (0 : ℚ) < 3 / 5 →
        ((topPSorted [(1 : ℚ) / 2, 1 / 4, 1 / 4]).get ⟨0, h0⟩).2 ∈
          topPKeepSet [(1 : ℚ) / 2, 1 / 4, 1 / 4] (3 / 5)) ∧
      (∀ j (hj : j + 1 < (topPSorted [(1 : ℚ) / 2, 1 / 4, 1 / 4]).length),
        (3 : ℚ) / 5 ≤ (((topPSorted [(1 : ℚ) / 2, 1 / 4, 1 / 4]).take (j + 1)).map
            Prod.fst).sum →
          ((topPSorted [(1 : ℚ) / 2, 1 / 4, 1 / 4]).get ⟨j + 1, hj⟩).2 ∉
            topPKeepSet [(1 : ℚ) / 2, 1 / 4, 1 / 4] (3 / 5))) := by
  have hnn : ∀ x ∈ [(1 : ℚ) / 2, 1 / 4, 1 / 4], 0 ≤ x := by
    intro x hx
    simp only [List.mem_cons, List.not_mem_nil, or_false] at hx
    rcases hx with rfl | rfl | rfl <;> norm_num
  exact ⟨hnn, c6_applyTopP_spec [(1 : ℚ) / 2, 1 / 4, 1 / 4] (3 / 5) hnn⟩

/-!  ## C7 — softmax over finite and `-Infinity` inputs  -/

/-- Folding JS `Math.max` from a finite accumulator over an
`-Infinity`-or-finite list tracks the rational fold over the finite
entries. -/
theorem foldl_max2J_fin (l : List JSNum)
    (hshape : ∀ x ∈ l, x = JSNum.ninf ∨ ∃ q, x = JSNum.fin q) (a : ℚ) :
    l.foldl max2J (.fin a) = .fin ((finVals l).foldl max a) := by
  induction l generalizing a with
  | nil => rfl
  | cons x rest ih =>
    have hrest : ∀ y ∈ rest, y = JSNum.ninf ∨ ∃ q, y = JSNum.fin q :=
      fun y hy => hshape y (by simp [hy])
    rcases hshape x (by simp) with rfl | ⟨q, rfl⟩
    · simpa [finVals, max2J] using ih hrest a
    · simpa [finVals, max2J] using ih hrest (max a q)

/-- On an `-Infinity`-or-finite list with at least one finite entry,
`Math.max(...arr)` is the (finite) maximum of the finite entries. -/
theorem maxJ_shape (l : List JSNum)
    (hshape : ∀ x ∈ l, x = JSNum.ninf ∨ ∃ q, x = JSNum.fin q)
    (hfin : ∃ q, JSNum.fin q ∈ l) :
    maxJ l = .fin (maxQ (finVals l)) := by
  induction l with
  | nil => obtain ⟨q, hq⟩ := hfin; cases hq
  | cons x rest ih =>
    have hrest : ∀ y ∈ rest, y = JSNum.ninf ∨ ∃ q, y = JSNum.fin q :=
      fun y hy => hshape y (by simp [hy])
    rcases hshape x (by simp) with rfl | ⟨q, rfl⟩
    · have hfr : ∃ q, JSNum.fin q ∈ rest := by
        obtain ⟨q, hq⟩ := hfin
        rcases List.mem_cons.mp hq with h | h
        · cases h
        · exact ⟨q, h⟩
      have : maxJ (JSNum.ninf :: rest) = maxJ rest := by
        simp [maxJ, max2J]
      rw [this, ih hrest hfr]
      simp [finVals]
    · have : maxJ (JSNum.fin q :: rest) = rest.foldl max2J (.fin q) := by
        simp [maxJ, max2J]
      rw [this, foldl_max2J_fin rest hrest q]
      simp [finVals, maxQ]

/-- Folding JS addition over wrapped finite values tracks rational
addition. -/
theorem foldl_addJ_fin (l : List ℚ) (a : ℚ) :
    (l.map JSNum.fin).foldl addJ (.fin a) = .fin (a + l.sum) := by
  induction l generalizing a with
  | nil => simp
  | cons x rest ih =>
    simp only [List.map_cons, List.foldl_cons, addJ]
    rw [ih (a + x), List.sum_cons, add_assoc]

/-- JS `reduce((a, b) => a + b, 0)` over wrapped finite values. -/
theorem sumJ_map_fin (l : List ℚ) : sumJ (l.map JSNum.fin) = .fin l.sum := by
  rw [sumJ, foldl_addJ_fin l 0, zero_add]

/-- The denominator of `softCore` is positive when `E` is positive and the
list has a finite entry. -/
theorem softCore_den_pos (E : ℚ → ℚ) (hpos : ∀ q, 0 < E q) (l : List JSNum)
    (hfin : ∃ q, JSNum.fin q ∈ l) :
    0 < (l.map (softExpTerm E (maxQ (finVals l)))).sum := by
  obtain ⟨q, hq⟩ := hfin
  have hmem : softExpTerm E (maxQ (finVals l)) (JSNum.fin q) ∈
      l.map (softExpTerm E (maxQ (finVals l))) :=
    List.mem_map_of_mem _ hq
  have hnn : ∀ y ∈ l.map (softExpTerm E (maxQ (finVals l))), 0 ≤ y := by
    intro y hy
    obtain ⟨x, _, rfl⟩ := List.mem_map.mp hy
    match x with
    | JSNum.fin r => exact le_of_lt (hpos _)
    | JSNum.ninf => exact le_refl 0
    | JSNum.pinf => exact le_refl 0
    | JSNum.nan => exact le_refl 0
  refine lt_of_lt_of_le ?_ (List.single_le_sum hnn _ hmem)
  exact hpos _

/-- The source-translated `softmax` computes exactly the `softCore` values
on `-Infinity`-or-finite inputs with a finite entry, for positive `E`. -/
theorem softmax_eq_softCore (E : ℚ → ℚ) (hpos : ∀ q, 0 < E q) (l : List JSNum)
    (hshape : ∀ x ∈ l, x = JSNum.ninf ∨ ∃ q, x = JSNum.fin q)
    (hfin : ∃ q, JSNum.fin q ∈ l) :
    softmax E l = (softCore E l).map JSNum.fin := by
  have hmax : maxJ l = .fin (maxQ (finVals l)) := maxJ_shape l hshape hfin
  have hden := softCore_den_pos E hpos l hfin
  simp only [softmax, softCore]
  rw [hmax]
  have hexps : (l.map fun x => expJ E (subJ x (.fin (maxQ (finVals l))))) =
      (l.map (softExpTerm E (maxQ (finVals l)))).map JSNum.fin := by
    rw [List.map_map]
    refine List.map_congr_left fun x hx => ?_
    rcases hshape x hx with rfl | ⟨q, rfl⟩
    · simp [subJ, expJ, softExpTerm]
    · simp [subJ, expJ, softExpTerm]
  rw [hexps, sumJ_map_fin]
  simp only [List.map_map]
  refine List.map_congr_left fun x _ => ?_
  simp only [Function.comp_apply, divJ, if_neg (ne_of_gt hden)]

/-- Companion `softCore` has the length of its input. -/
theorem softCore_length (E : ℚ → ℚ) (l : List JSNum) :
    (softCore E l).length = l.length := by
  simp [softCore]

/-- Companion `softCore` sums to exactly 1 when some entry is finite and `E` is
positive. -/
theorem softCore_sum_one (E : ℚ → ℚ) (hpos : ∀ q, 0 < E q) (l : List JSNum)
    (hfin : ∃ q, JSNum.fin q ∈ l) : (softCore E l).sum = 1 := by
  have hden := softCore_den_pos E hpos l hfin
  simp only [softCore]
  rw [sum_map_div, div_self (ne_of_gt hden)]

/-- The value of `softCore` at a position. -/
theorem softCore_getElem (E : ℚ → ℚ) (l : List JSNum) (i : ℕ)
    (hi : i < l.length) (hi' : i < (softCore E l).length) :
    (softCore E l).get ⟨i, hi'⟩ =
      softExpTerm E (maxQ (finVals l)) (l.get ⟨i, hi⟩) /
        (l.map (softExpTerm E (maxQ (finVals l)))).sum := by
  simp [softCore]

/-- The `softCore` entry of a `-Infinity` position is exactly 0. -/
theorem softCore_ninf (E : ℚ → ℚ) (l : List JSNum) (i : ℕ) (hi : i < l.length)
    (hi' : i < (softCore E l).length) (h : l.get ⟨i, hi⟩ = JSNum.ninf) :
    (softCore E l).get ⟨i, hi'⟩ = 0 := by
  rw [softCore_getElem E l i hi hi', h]
  simp [softExpTerm]

/-- Monotonicity of `softCore` in the finite input entries. -/
theorem softCore_mono (E : ℚ → ℚ) (hpos : ∀ q, 0 < E q)
    (hmono : ∀ a b : ℚ, a ≤ b → E a ≤ E b) (l : List JSNum)
    (i j : ℕ) (hi : i < l.length) (hj : j < l.length)
    (hi' : i < (softCore E l).length) (hj' : j < (softCore E l).length)
    (qi qj : ℚ) (hqi : l.get ⟨i, hi⟩ = JSNum.fin qi)
    (hqj : l.get ⟨j, hj⟩ = JSNum.fin qj) (hle : qj ≤ qi) :
    (softCore E l).get ⟨j, hj'⟩ ≤ (softCore E l).get ⟨i, hi'⟩ := by
  rw [softCore_getElem E l i hi hi', softCore_getElem E l j hj hj', hqi, hqj]
  have hfin : ∃ q, JSNum.fin q ∈ l := ⟨qi, by rw [← hqi]; exact List.get_mem l i hi⟩
  have hden := softCore_den_pos E hpos l hfin
  simp only [softExpTerm]
  exact (div_le_div_iff_of_pos_right hden).mpr (hmono _ _ (by linarith))

/-- C7, corrected: on every input vector whose entries are finite or
`-Infinity` *with at least one finite entry* (the unrestricted claim fails
on all-`-Infinity` inputs, see `c7_softmax_counterexample`), `softmax`
returns the finite `softCore` values; these sum to 1 within `1e-10` (here
exactly 1), are order-preserving (a larger input entry yields a larger or
equal output entry), and every `-Infinity` position yields exactly `0`. -/
theorem c7_softmax_properties (E : ℚ → ℚ) (hpos : ∀ q, 0 < E q)
    (hmono : ∀ a b : ℚ, a ≤ b → E a ≤ E b) (l : List JSNum)
    (hshape : ∀ x ∈ l, x = JSNum.ninf ∨ ∃ q, x = JSNum.fin q)
    (hfin : ∃ q, JSNum.fin q ∈ l) :
    softmax E l = (softCore E l).map JSNum.fin ∧
    |(softCore E l).sum - 1| ≤ 1 / 10000000000 ∧
    (∀ i j (hi : i < l.length) (hj : j < l.length)
        (hi' : i < (softCore E l).length) (hj' : j < (softCore E l).length)
        (qi qj : ℚ), l.get ⟨i, hi⟩ = JSNum.fin qi → l.get ⟨j, hj⟩ = JSNum.fin qj →
        qj ≤ qi → (softCore E l).get ⟨j, hj'⟩ ≤ (softCore E l).get ⟨i, hi'⟩) ∧
    (∀ i (hi : i < l.length) (hi' : i < (softCore E l).length),
        l.get ⟨i, hi⟩ = JSNum.ninf → (softCore E l).get ⟨i, hi'⟩ = 0) := by
  refine ⟨softmax_eq_softCore E hpos l hshape hfin, ?_, ?_, ?_⟩
  · rw [softCore_sum_one E hpos l hfin]
    norm_num
  · intro i j hi hj hi' hj' qi qj hqi hqj hle
    exact softCore_mono E hpos hmono l i j hi hj hi' hj' qi qj hqi hqj hle
  · intro i hi hi' h
    exact softCore_ninf E l i hi hi' h

/-- Counterexample to C7 as stated: for the all-`-Infinity` input
`[-Infinity]`, the code computes `max = -Infinity`, then
`(-Infinity) - (-Infinity) = NaN`, so the `-Infinity` position produces
`NaN`, not the claimed exact `0`. -/
theorem c7_softmax_counterexample :
    softmax qexp [JSNum.ninf] = [JSNum.nan] ∧ JSNum.nan ≠ JSNum.fin 0 := by
  constructor
  · rfl
  · intro h
    cases h

/-- Witness for C7 at the concrete input `[0, -Infinity]` with `E = qexp`. -/
theorem c7_softmax_properties_witness :
    (∀ q : ℚ, 0 < qexp q) ∧
    (∀ x ∈ [JSNum.fin 0, JSNum.ninf], x = JSNum.ninf ∨ ∃ q, x = JSNum.fin q) ∧
    (∃ q, JSNum.fin q ∈ [JSNum.fin 0, JSNum.ninf]) ∧
    (softmax qexp [JSNum.fin 0, JSNum.ninf] =
        (softCore qexp [JSNum.fin 0, JSNum.ninf]).map JSNum.fin ∧
      |(softCore qexp [JSNum.fin 0, JSNum.ninf]).sum - 1| ≤ 1 / 10000000000 ∧
      (∀ i j (hi : i < [JSNum.fin 0, JSNum.ninf].length)
          (hj : j < [JSNum.fin 0, JSNum.ninf].length)
          (hi' : i < (softCore qexp [JSNum.fin 0, JSNum.ninf]).length)
          (hj' : j < (softCore qexp [JSNum.fin 0, JSNum.ninf]).length)
          (qi qj : ℚ),
          [JSNum.fin 0, JSNum.ninf].get ⟨i, hi⟩ = JSNum.fin qi →
          [JSNum.fin 0, JSNum.ninf].get ⟨j, hj⟩ = JSNum.fin qj → qj ≤ qi →
          (softCore qexp [JSNum.fin 0, JSNum.ninf]).get ⟨j, hj'⟩ ≤
            (softCore qexp [JSNum.fin 0, JSNum.ninf]).get ⟨i, hi'⟩) ∧
      (∀ i (hi : i < [JSNum.fin 0, JSNum.ninf].length)
          (hi' : i < (softCore qexp [JSNum.fin 0, JSNum.ninf]).length),
          [JSNum.fin 0, JSNum.ninf].get ⟨i, hi⟩ = JSNum.ninf →
          (softCore qexp [JSNum.fin 0, JSNum.ninf]).get ⟨i, hi'⟩ = 0)) := by
  have hshape : ∀ x ∈ [JSNum.fin 0, JSNum.ninf],
      x = JSNum.ninf ∨ ∃ q, x = JSNum.fin q := by
    intro x hx
    simp only [List.mem_cons, List.not_mem_nil, or_false] at hx
    rcases hx with rfl | rfl
    · exact Or.inr ⟨0, rfl⟩
    · exact Or.inl rfl
  have hfin : ∃ q, JSNum.fin q ∈ [JSNum.fin 0, JSNum.ninf] := ⟨0, by simp⟩
  exact ⟨qexp_pos, hshape, hfin,
    c7_softmax_properties qexp qexp_pos qexp_mono [JSNum.fin 0, JSNum.ninf] hshape hfin⟩

/-!  ## C8 — causal mask and attention weights  -/

theorem applyCausalMask_length (S : List (List JSNum)) :
    (applyCausalMask S).length = S.length := by
  simp [applyCausalMask]

/-- Row `i` of the causal mask: entry `j` of row `i` becomes `-Infinity`
when `i < j` and is unchanged otherwise. -/
theorem applyCausalMask_row (S : List (List JSNum)) (i : ℕ)
    (hi : i < S.length) (hi' : i < (applyCausalMask S).length) :
    (applyCausalMask S).get ⟨i, hi'⟩ =
      (S.get ⟨i, hi⟩).enum.map fun cv => if i < cv.1 then JSNum.ninf else cv.2 := by
  simp [applyCausalMask, List.getElem_enum]

/-- Pointwise value of the causal mask. -/
theorem applyCausalMask_getElem (S : List (List JSNum)) (i j : ℕ)
    (hi : i < S.length) (hj : j < (S.get ⟨i, hi⟩).length)
    (hi' : i < (applyCausalMask S).length)
    (hj' : j < ((applyCausalMask S).get ⟨i, hi'⟩).length) :
    ((applyCausalMask S).get ⟨i, hi'⟩).get ⟨j, hj'⟩ =
      if i < j then JSNum.ninf else (S.get ⟨i, hi⟩).get ⟨j, hj⟩ := by
  have hrow := applyCausalMask_row S i hi hi'
  simp only [List.get_eq_getElem] at hrow ⊢
  simp only [hrow]
  simp [List.getElem_enum]

theorem transposeM_length (M : List (List ℚ)) :
    (transposeM M).length = M.headI.length := by
  simp [transposeM]

/-- First-row length of the transpose (for a matrix with at least one
column): the number of rows of the original. -/
theorem transposeM_headI_length (M : List (List ℚ)) (h : 0 < M.headI.length) :
    (transposeM M).headI.length = M.length := by
  obtain ⟨n, hn⟩ : ∃ n, M.headI.length = n + 1 :=
    ⟨M.headI.length - 1, by omega⟩
  have hT : transposeM M = (List.range M.headI.length).map fun j =>
      (List.range M.length).map fun i => (M.getD i []).getD j 0 := rfl
  rw [hT, hn, List.range_succ_eq_map, List.map_cons]
  simp [List.headI]

theorem matmul_length (A B : List (List ℚ)) :
    (matmul A B).length = A.length := by
  simp [matmul]

theorem matmul_row_length (A B : List (List ℚ)) (i : ℕ)
    (hi : i < (matmul A B).length) :
    ((matmul A B).get ⟨i, hi⟩).length = B.headI.length := by
  simp [matmul]

/-- Auxiliary: `l.headI` of a nonempty list is an element. -/
theorem headI_mem {α : Type} [Inhabited α] (l : List α) (h : l ≠ []) : l.headI ∈ l := by
  cases l with
  | nil => exact absurd rfl h
  | cons a t => exact List.mem_cons_self a t

/-- Pointwise (`getElem`) form of `applyCausalMask_row`. -/
theorem applyCausalMask_getElem_row (S : List (List JSNum)) (i : ℕ)
    (hi : i < S.length) (hi' : i < (applyCausalMask S).length) :
    (applyCausalMask S)[i] =
      S[i].enum.map fun cv => if i < cv.1 then JSNum.ninf else cv.2 := by
  simp [applyCausalMask, List.getElem_enum]

/-- Softmax of one causally-masked row: the row of finite scaled scores is
abstracted as `r`, masked at row index `i < r.length`.  The resulting
weights row has the length of `r`, sums (as JS numbers) to exactly 1, and
is exactly 0 above the diagonal. -/
theorem softmax_masked_row (E : ℚ → ℚ) (hpos : ∀ q, 0 < E q) (r : List ℚ)
    (i : ℕ) (hir : i < r.length) :
    (softmax E ((r.map JSNum.fin).enum.map fun cv =>
        if i < cv.1 then JSNum.ninf else cv.2)).length = r.length ∧
    sumJ (softmax E ((r.map JSNum.fin).enum.map fun cv =>
        if i < cv.1 then JSNum.ninf else cv.2)) = JSNum.fin 1 ∧
    (∀ j (hj : j < (softmax E ((r.map JSNum.fin).enum.map fun cv =>
        if i < cv.1 then JSNum.ninf else cv.2)).length), i < j →
      (softmax E ((r.map JSNum.fin).enum.map fun cv =>
        if i < cv.1 then JSNum.ninf else cv.2))[j] = JSNum.fin 0) := by
  set row := (r.map JSNum.fin).enum.map fun cv =>
    if i < cv.1 then JSNum.ninf else cv.2 with hrowdef
  have hrowlen : row.length = r.length := by simp [hrowdef]
  have hrowget : ∀ j (hj : j < row.length),
      row[j] = if i < j then JSNum.ninf else JSNum.fin (r.get ⟨j, by omega⟩) := by
    intro j hj
    simp [hrowdef, List.getElem_enum, List.get_eq_getElem]
  have hshape : ∀ x ∈ row, x = JSNum.ninf ∨ ∃ q, x = JSNum.fin q := by
    intro x hx
    obtain ⟨j, hj, rfl⟩ := List.mem_iff_getElem.mp hx
    rw [hrowget j hj]
    split
    · exact Or.inl rfl
    · exact Or.inr ⟨_, rfl⟩
  have hfin : ∃ q, JSNum.fin q ∈ row := by
    have hii : i < row.length := by omega
    refine ⟨r.get ⟨i, by omega⟩, ?_⟩
    have := hrowget i hii
    rw [if_neg (lt_irrefl i)] at this
    rw [← this]
    exact List.getElem_mem hii
  have hsoft := softmax_eq_softCore E hpos row hshape hfin
  refine ⟨?_, ?_, ?_⟩
  · rw [hsoft]
    simp [softCore_length, hrowlen]
  · rw [hsoft, sumJ_map_fin, softCore_sum_one E hpos row hfin]
  · intro j hj hij
    have hjsc : j < (softCore E row).length := by
      rw [hsoft] at hj
      simpa using hj
    have hjrow : j < row.length := by
      rw [← softCore_length E row]
      exact hjsc
    have hninf : row.get ⟨j, hjrow⟩ = JSNum.ninf := by
      simp only [List.get_eq_getElem]
      rw [hrowget j hjrow, if_pos hij]
    have hz := softCore_ninf E row j hjrow hjsc hninf
    simp only [List.get_eq_getElem] at hz
    simp only [hsoft, List.getElem_map, hz]

/-- C8: `applyCausalMask` leaves `scores[i][j]` unchanged for `j <= i` and
sets it to `-Infinity` for `j > i` on every square matrix; and for
well-formed `Q`, `K`, `V` (nonempty, uniform row length `d_k > 0`, equal
sequence lengths) with causal masking enabled, every attention weight above
the diagonal is exactly `0` and every row of weights sums to exactly `1`.
`sq` stands in for `Math.sqrt`, assumed positive at `d_k` as the real
square root is. -/
theorem c8_causal_attention :
    (∀ S : List (List JSNum), (∀ row ∈ S, row.length = S.length) →
      ∀ i j (hi : i < S.length) (hj : j < (S.get ⟨i, hi⟩).length)
        (hi' : i < (applyCausalMask S).length)
        (hj' : j < ((applyCausalMask S).get ⟨i, hi'⟩).length),
        ((applyCausalMask S).get ⟨i, hi'⟩).get ⟨j, hj'⟩ =
          if i < j then JSNum.ninf else (S.get ⟨i, hi⟩).get ⟨j, hj⟩) ∧
    (∀ (E sq : ℚ → ℚ), (∀ q, 0 < E q) →
      ∀ (Q K V : List (List ℚ)), Q ≠ [] → 0 < Q.headI.length →
      0 < sq ((Q.headI.length : ℕ) : ℚ) →
      (∀ row ∈ Q, row.length = Q.headI.length) →
      (∀ row ∈ K, row.length = Q.headI.length) →
      K.length = Q.length →
      (scaledDotProductAttention E sq Q K V true).weights.length = Q.length ∧
      (∀ i (hi : i < (scaledDotProductAttention E sq Q K V true).weights.length),
        ((scaledDotProductAttention E sq Q K V true).weights.get ⟨i, hi⟩).length
            = Q.length ∧
        sumJ ((scaledDotProductAttention E sq Q K V true).weights.get ⟨i, hi⟩)
            = JSNum.fin 1 ∧
        (∀ j (hj : j <
            ((scaledDotProductAttention E sq Q K V true).weights.get ⟨i, hi⟩).length),
          i < j →
          ((scaledDotProductAttention E sq Q K V true).weights.get ⟨i, hi⟩).get
              ⟨j, hj⟩ = JSNum.fin 0))) := by
  refine ⟨fun S _ i j hi hj hi' hj' => applyCausalMask_getElem S i j hi hj hi' hj', ?_⟩
  intro E sq hpos Q K V hQne hdk hsq hQ hK hKQ
  have hKne : K ≠ [] := by
    intro h
    apply hQne
    rw [h] at hKQ
    exact List.length_eq_zero.mp hKQ.symm
  have hKheadI : K.headI.length = Q.headI.length := hK K.headI (headI_mem K hKne)
  have hTlen : (transposeM K).headI.length = K.length :=
    transposeM_headI_length K (by rw [hKheadI]; exact hdk)
  have hW : (scaledDotProductAttention E sq Q K V true).weights =
      (applyCausalMask (((matmul Q (transposeM K)).map fun row =>
        row.map fun x => x / sq ((Q.headI.length : ℕ) : ℚ)).map fun row =>
          row.map JSNum.fin)).map (softmax E) := rfl
  have hsc_len : (matmul Q (transposeM K)).length = Q.length :=
    matmul_length Q (transposeM K)
  have hWlen : (scaledDotProductAttention E sq Q K V true).weights.length = Q.length := by
    rw [hW]
    simp [applyCausalMask_length, hsc_len]
  refine ⟨hWlen, ?_⟩
  intro i hi
  simp only [List.get_eq_getElem]
  have hiQ : i < Q.length := by omega
  have hisc : i < (matmul Q (transposeM K)).length := by omega
  have hiscaled : i < ((matmul Q (transposeM K)).map fun row =>
      row.map fun x => x / sq ((Q.headI.length : ℕ) : ℚ)).length := by
    simpa using hisc
  have hiSJ : i < (((matmul Q (transposeM K)).map fun row =>
      row.map fun x => x / sq ((Q.headI.length : ℕ) : ℚ)).map fun row =>
        row.map JSNum.fin).length := by
    simpa using hisc
  have hiM : i < (applyCausalMask (((matmul Q (transposeM K)).map fun row =>
      row.map fun x => x / sq ((Q.headI.length : ℕ) : ℚ)).map fun row =>
        row.map JSNum.fin)).length := by
    rw [applyCausalMask_length]
    exact hiSJ
  have hscrow_len : (matmul Q (transposeM K))[i].length = Q.length := by
    have h1 := matmul_row_length Q (transposeM K) i hisc
    simp only [List.get_eq_getElem] at h1
    rw [hTlen, hKQ] at h1
    exact h1
  have hSJi : (((matmul Q (transposeM K)).map fun row =>
      row.map fun x => x / sq ((Q.headI.length : ℕ) : ℚ)).map fun row =>
        row.map JSNum.fin)[i] =
      ((matmul Q (transposeM K))[i].map fun x =>
        x / sq ((Q.headI.length : ℕ) : ℚ)).map JSNum.fin := by
    simp [List.getElem_map]
  have hWi : (scaledDotProductAttention E sq Q K V true).weights[i] =
      softmax E ((((matmul Q (transposeM K))[i].map fun x =>
        x / sq ((Q.headI.length : ℕ) : ℚ)).map JSNum.fin).enum.map fun cv =>
          if i < cv.1 then JSNum.ninf else cv.2) := by
    simp only [hW, List.getElem_map]
    rw [applyCausalMask_getElem_row _ i hiSJ hiM, hSJi]
  have hirlen : i < ((matmul Q (transposeM K))[i].map fun x =>
      x / sq ((Q.headI.length : ℕ) : ℚ)).length := by
    simp only [List.length_map]
    omega
  have hmain := softmax_masked_row E hpos
    ((matmul Q (transposeM K))[i].map fun x => x / sq ((Q.headI.length : ℕ) : ℚ))
    i hirlen
  refine ⟨?_, ?_, ?_⟩
  · rw [hWi, hmain.1]
    simp only [List.length_map]
    exact hscrow_len
  · rw [hWi]
    exact hmain.2.1
  · intro j hj hij
    have hj2 : j < (softmax E ((((matmul Q (transposeM K))[i].map fun x =>
        x / sq ((Q.headI.length : ℕ) : ℚ)).map JSNum.fin).enum.map fun cv =>
          if i < cv.1 then JSNum.ninf else cv.2)).length := by
      rw [← hWi]
      simpa using hj
    have := hmain.2.2 j hj2 hij
    simp only [hWi]
    exact this

/-- Witness for C8: the causal-mask clause at the concrete square matrix
`S0` (position `(0, 1)`), and the attention clause at the spec's example
`Q = K = [[1,0],[0,1]]`, `V = [[10,0],[0,20]]` with `E = qexp` and the
identity standing in for `Math.sqrt` (positive at `d_k = 2`). -/
theorem c8_causal_attention_witness :
    ((∀ row ∈ S0, row.length = S0.length) ∧
      ((applyCausalMask S0).get ⟨0, by decide⟩).get ⟨1, by decide⟩ =
        if (0 : ℕ) < 1 then JSNum.ninf else (S0.get ⟨0, by decide⟩).get ⟨1, by decide⟩) ∧
    ((Q0 ≠ [] ∧ 0 < Q0.headI.length ∧
        (0 : ℚ) < (fun q : ℚ => q) ((Q0.headI.length : ℕ) : ℚ) ∧
        (∀ row ∈ Q0, row.length = Q0.headI.length) ∧ Q0.length = Q0.length) ∧
      ((scaledDotProductAttention qexp (fun q : ℚ => q) Q0 Q0 V0 true).weights.length
          = Q0.length ∧
        (∀ i (hi : i <
            (scaledDotProductAttention qexp (fun q : ℚ => q) Q0 Q0 V0 true).weights.length),
          ((scaledDotProductAttention qexp (fun q : ℚ => q) Q0 Q0 V0
              true).weights.get ⟨i, hi⟩).length = Q0.length ∧
          sumJ ((scaledDotProductAttention qexp (fun q : ℚ => q) Q0 Q0 V0
              true).weights.get ⟨i, hi⟩) = JSNum.fin 1 ∧
          (∀ j (hj : j < ((scaledDotProductAttention qexp (fun q : ℚ => q) Q0 Q0 V0
              true).weights.get ⟨i, hi⟩).length),
            i < j →
            ((scaledDotProductAttention qexp (fun q : ℚ => q) Q0 Q0 V0
                true).weights.get ⟨i, hi⟩).get ⟨j, hj⟩ = JSNum.fin 0)))) := by
  have hS : ∀ row ∈ S0, row.length = S0.length := by
    intro row hr
    simp only [S0, List.mem_cons, List.not_mem_nil, or_false] at hr
    rcases hr with rfl | rfl <;> rfl
  have h1 : Q0 ≠ [] := by simp [Q0]
  have h2 : 0 < Q0.headI.length := by norm_num [Q0, List.headI]
  have h3 : (0 : ℚ) < (fun q : ℚ => q) ((Q0.headI.length : ℕ) : ℚ) := by
    norm_num [Q0, List.headI]
  have h4 : ∀ row ∈ Q0, row.length = Q0.headI.length := by
    intro row hr
    simp only [Q0, List.mem_cons, List.not_mem_nil, or_false] at hr
    rcases hr with rfl | rfl <;> rfl
  exact ⟨⟨hS, c8_causal_attention.1 S0 hS 0 1 (by decide) (by decide) (by decide) (by decide)⟩,
    ⟨⟨h1, h2, h3, h4, rfl⟩,
      c8_causal_attention.2 qexp (fun q : ℚ => q) qexp_pos Q0 Q0 V0 h1 h2 h3 h4 h4 rfl⟩⟩

/-!  ## C2 / C4 — the BPE merge loop  -/

/-- A successful pair lookup implies the second member of the pair is in
range. -/
theorem matchAt_some_lt {t : List String} {i : ℕ} {r : MergeRule}
    (h : matchAt t i = some r) : i + 1 < t.length := by
  by_contra hc
  push_neg at hc
  rw [matchAt, List.getElem?_eq_none hc] at h
  revert h
  cases t[i]? <;> exact fun h => Option.noConfusion h

/-- Membership in the candidate list is exactly a successful `matchAt`. -/
theorem mem_candidates {t : List String} {r : MergeRule} {i : ℕ} :
    (r, i) ∈ candidates t ↔ matchAt t i = some r := by
  rw [candidates, List.mem_filterMap]
  constructor
  · rintro ⟨a, _, ha⟩
    match hma : matchAt t a with
    | none => rw [hma] at ha; cases ha
    | some r' =>
      rw [hma] at ha
      simp only [Option.map_some', Option.some.injEq, Prod.mk.injEq] at ha
      obtain ⟨rfl, rfl⟩ := ha
      exact hma
  · intro h
    refine ⟨i, ?_, by rw [h]; rfl⟩
    have := matchAt_some_lt h
    rw [List.mem_range]
    omega

/-- The candidate list is strictly increasing in the scan index. -/
theorem candidates_pairwise (t : List String) :
    (candidates t).Pairwise fun a b => a.2 < b.2 := by
  refine List.Pairwise.filterMap _ ?_ (List.pairwise_lt_range _)
  intro a a' hlt b hb b' hb'
  rw [Option.mem_def, Option.map_eq_some'] at hb hb'
  obtain ⟨r1, hr1, rfl⟩ := hb
  obtain ⟨r2, hr2, rfl⟩ := hb'
  exact hlt

/-- Folding `bestStep` from a present incumbent never produces `none`. -/
theorem foldl_bestStep_ne_none (cs : List (MergeRule × ℕ)) (c : MergeRule × ℕ) :
    cs.foldl bestStep (some c) ≠ none := by
  induction cs generalizing c with
  | nil => simp
  | cons d rest ih =>
    simp only [List.foldl_cons]
    rw [bestStep]
    split
    · exact ih _
    · exact ih _

/-- Invariant of the best-merge fold: starting from incumbent `(br, bi)`
over a strictly index-increasing candidate list whose indices all exceed
`bi`, the fold's result is the incumbent or a strictly better candidate;
it dominates every candidate (non-strictly), strictly dominates every
earlier-indexed candidate, and its index never decreases. -/
theorem foldl_bestStep_spec (cs : List (MergeRule × ℕ)) (br : MergeRule) (bi : ℕ)
    (hsorted : cs.Pairwise fun a b => a.2 < b.2)
    (hbi : ∀ p ∈ cs, bi < p.2) (r : MergeRule) (idx : ℕ)
    (h : cs.foldl bestStep (some (br, bi)) = some (r, idx)) :
    ((r = br ∧ idx = bi) ∨ ((r, idx) ∈ cs ∧ br.frequency < r.frequency)) ∧
    (∀ p ∈ cs, p.1.frequency ≤ r.frequency) ∧
    (∀ p ∈ cs, p.2 < idx → p.1.frequency < r.frequency) ∧
    bi ≤ idx := by
  induction cs generalizing br bi with
  | nil =>
    simp only [List.foldl_nil, Option.some.injEq, Prod.mk.injEq] at h
    obtain ⟨rfl, rfl⟩ := h
    exact ⟨Or.inl ⟨rfl, rfl⟩, by simp, by simp, le_refl _⟩
  | cons c rest ih =>
    have hsr : rest.Pairwise fun a b => a.2 < b.2 := hsorted.tail
    have hcrest : ∀ p ∈ rest, c.2 < p.2 :=
      fun p hp => List.rel_of_pairwise_cons hsorted hp
    have hbic : bi < c.2 := hbi c (by simp)
    simp only [List.foldl_cons] at h
    rw [bestStep] at h
    split at h
    · -- the new candidate strictly beats the incumbent
      rename_i hlt
      obtain ⟨hd, hall, hstrict, hle⟩ := ih c.1 c.2 hsr hcrest h
      refine ⟨?_, ?_, ?_, ?_⟩
      · rcases hd with ⟨hr, hidx⟩ | ⟨hmem, hfreq⟩
        · exact Or.inr ⟨by rw [hr, hidx]; exact List.mem_cons_self _ _, by rw [hr]; exact hlt⟩
        · exact Or.inr ⟨List.mem_cons_of_mem _ hmem, lt_trans hlt hfreq⟩
      · intro p hp
        rcases List.mem_cons.mp hp with rfl | hp
        · rcases hd with ⟨hr, _⟩ | ⟨_, hfreq⟩
          · rw [hr]
          · exact le_of_lt hfreq
        · exact hall p hp
      · intro p hp hpidx
        rcases List.mem_cons.mp hp with rfl | hp
        · rcases hd with ⟨hr, hidx⟩ | ⟨_, hfreq⟩
          · rw [hidx] at hpidx
            exact absurd hpidx (lt_irrefl _)
          · exact hfreq
        · exact hstrict p hp hpidx
      · omega
    · -- the incumbent survives
      rename_i hnlt
      push_neg at hnlt
      have hbirest : ∀ p ∈ rest, bi < p.2 := fun p hp => hbi p (by simp [hp])
      obtain ⟨hd, hall, hstrict, hle⟩ := ih br bi hsr hbirest h
      refine ⟨?_, ?_, ?_, hle⟩
      · rcases hd with ⟨hr, hidx⟩ | ⟨hmem, hfreq⟩
        · exact Or.inl ⟨hr, hidx⟩
        · exact Or.inr ⟨List.mem_cons_of_mem _ hmem, hfreq⟩
      · intro p hp
        rcases List.mem_cons.mp hp with rfl | hp
        · rcases hd with ⟨hr, _⟩ | ⟨_, hfreq⟩
          · rw [hr]; exact hnlt
          · exact le_trans hnlt (le_of_lt hfreq)
        · exact hall p hp
      · intro p hp hpidx
        rcases List.mem_cons.mp hp with rfl | hp
        · rcases hd with ⟨_, hidx⟩ | ⟨_, hfreq⟩
          · rw [hidx] at hpidx
            exact absurd (lt_trans hbic hpidx) (lt_irrefl _)
          · exact lt_of_le_of_lt hnlt hfreq
        · exact hstrict p hp hpidx

/-- Specification of `findBest`: it fails only when no pair matches, and a
returned `(rule, idx)` matches at `idx`, dominates every match, and
strictly dominates every earlier match (the first-seen-maximum
tie-break). -/
theorem findBest_spec (t : List String) :
    (findBest t = none → ∀ i, matchAt t i = none) ∧
    (∀ r idx, findBest t = some (r, idx) →
      matchAt t idx = some r ∧
      (∀ i r', matchAt t i = some r' → r'.frequency ≤ r.frequency) ∧
      (∀ i r', matchAt t i = some r' → i < idx → r'.frequency < r.frequency)) := by
  match hc : candidates t with
  | [] =>
    constructor
    · intro _ i
      match hm : matchAt t i with
      | none => rfl
      | some r =>
        have : (r, i) ∈ candidates t := mem_candidates.mpr hm
        rw [hc] at this
        cases this
    · intro r idx h
      rw [findBest, hc] at h
      cases h
  | c :: rest =>
    have hpw := candidates_pairwise t
    rw [hc] at hpw
    constructor
    · intro h
      rw [findBest, hc, List.foldl_cons] at h
      rw [bestStep] at h
      exact absurd h (foldl_bestStep_ne_none rest c)
    · intro r idx h
      rw [findBest, hc, List.foldl_cons] at h
      rw [bestStep] at h
      obtain ⟨hd, hall, hstrict, _⟩ :=
        foldl_bestStep_spec rest c.1 c.2 hpw.tail
          (fun p hp => List.rel_of_pairwise_cons hpw hp) r idx h
      have hmemc : (r, idx) ∈ candidates t := by
        rcases hd with ⟨hr, hidx⟩ | ⟨hmem, _⟩
        · rw [hc, hr, hidx]
          exact List.mem_cons_self _ _
        · rw [hc]
          exact List.mem_cons_of_mem _ hmem
      refine ⟨mem_candidates.mp hmemc, ?_, ?_⟩
      · intro i r' hm
        have hmem : (r', i) ∈ c :: rest := by rw [← hc]; exact mem_candidates.mpr hm
        rcases List.mem_cons.mp hmem with heq | hmem
        · rcases hd with ⟨hr, _⟩ | ⟨_, hfreq⟩
          · have h1 : r' = c.1 := by rw [← heq]
            rw [h1, hr]
          · calc r'.frequency = c.1.frequency := by rw [← heq]
              _ ≤ r.frequency := le_of_lt hfreq
        · exact hall (r', i) hmem
      · intro i r' hm hlt
        have hmem : (r', i) ∈ c :: rest := by rw [← hc]; exact mem_candidates.mpr hm
        rcases List.mem_cons.mp hmem with heq | hmem
        · rcases hd with ⟨hr, hidx⟩ | ⟨_, hfreq⟩
          · exfalso
            have h1 : i = c.2 := by rw [← heq]
            rw [h1, hidx] at hlt
            exact lt_irrefl _ hlt
          · calc r'.frequency = c.1.frequency := by rw [← heq]
              _ < r.frequency := hfreq
        · exact hstrict (r', i) hmem hlt

/-- Applying one merge shortens the token list by exactly one. -/
theorem applyMergeAt_length (t : List String) (idx : ℕ) (result : String)
    (h : idx + 1 < t.length) :
    (applyMergeAt t idx result).length + 1 = t.length := by
  simp only [applyMergeAt, List.length_append, List.length_take, List.length_cons,
    List.length_drop]
  omega

/-- Every step recorded by the merge loop satisfies the C4 per-step
property, chained along the trace. -/
theorem bpeLoop_chainOK (fuel : ℕ) :
    ∀ (tokens : List String) (stepNum : ℕ),
      bpeChainOK tokens (bpeLoop fuel tokens stepNum).2 := by
  induction fuel with
  | zero => intro tokens stepNum; trivial
  | succ fuel ih =>
    intro tokens stepNum
    rw [bpeLoop]
    match hfb : findBest tokens with
    | none => trivial
    | some (r, idx) =>
      obtain ⟨hmatch, hall, hstrict⟩ := (findBest_spec tokens).2 r idx hfb
      refine ⟨⟨r, idx, rfl, rfl, rfl, rfl, hmatch, hall, hstrict, rfl, ?_⟩, ?_⟩
      · exact applyMergeAt_length tokens idx r.result (matchAt_some_lt hmatch)
      · exact ih (applyMergeAt tokens idx r.result) (stepNum + 1)

/-- The merge loop records at most `fuel` steps, and if it recorded fewer
then no pair matched in the final token list. -/
theorem bpeLoop_spec (fuel : ℕ) :
    ∀ (tokens : List String) (stepNum : ℕ),
      (bpeLoop fuel tokens stepNum).2.length ≤ fuel ∧
      ((bpeLoop fuel tokens stepNum).2.length < fuel →
        findBest (bpeLoop fuel tokens stepNum).1 = none) := by
  induction fuel with
  | zero =>
    intro tokens stepNum
    exact ⟨le_refl 0, fun h => absurd h (by omega)⟩
  | succ fuel ih =>
    intro tokens stepNum
    rw [bpeLoop]
    match hfb : findBest tokens with
    | none =>
      refine ⟨by simp, fun _ => ?_⟩
      exact hfb
    | some (r, idx) =>
      obtain ⟨ihlen, ihnone⟩ := ih (applyMergeAt tokens idx r.result) (stepNum + 1)
      refine ⟨by simpa using Nat.succ_le_succ ihlen, fun h => ?_⟩
      simp only [List.length_cons] at h
      exact ihnone (by omega)

/-- Mapping final token strings through the vocabulary and back to their
text is the identity. -/
theorem map_mkToken_text (l : List String) : (l.map mkToken).map Token.text = l := by
  induction l with
  | nil => rfl
  | cons a t ih => simp [mkToken, ih]

/-- C4: every recorded merge step of `simulateBPE` applies the
highest-frequency rule among all adjacent pairs currently matching a rule,
with ties broken in favour of the earliest-found (leftmost) pair via the
strict `>` comparison, applying exactly one merge per step. -/
theorem c4_bpe_merge_selection (text : String) :
    bpeChainOK ((normalizeText text).map fun c => String.mk [c])
      (simulateBPE text).mergeSteps.tail :=
  bpeLoop_chainOK 19 ((normalizeText text).map fun c => String.mk [c]) 1

/-- C2, corrected: for every input the BPE merge trace terminates and
`totalMerges` is the trace length minus the initial snapshot; the loop
stops exactly when no adjacent pair matches a rule or when the hard cap is
reached — but the cap is **19** merge steps, not the claimed 20 (the guard
`stepNum < 20` starts from `stepNum = 1`; see
`c2_merge_cap_counterexample`). -/
theorem c2_bpe_termination (text : String) :
    (simulateBPE text).totalMerges = (simulateBPE text).mergeSteps.length - 1 ∧
    (simulateBPE text).totalMerges ≤ 19 ∧
    (findBest ((simulateBPE text).finalTokens.map Token.text) = none ∨
      (simulateBPE text).totalMerges = 19) := by
  have hspec := bpeLoop_spec 19 ((normalizeText text).map fun c => String.mk [c]) 1
  have htm : (simulateBPE text).totalMerges =
      (bpeLoop 19 ((normalizeText text).map fun c => String.mk [c]) 1).2.length := rfl
  have hft : (simulateBPE text).finalTokens.map Token.text =
      (bpeLoop 19 ((normalizeText text).map fun c => String.mk [c]) 1).1 :=
    map_mkToken_text _
  refine ⟨rfl, ?_, ?_⟩
  · rw [htm]
    exact hspec.1
  · by_cases hcap : (simulateBPE text).totalMerges = 19
    · exact Or.inr hcap
    · refine Or.inl ?_
      rw [hft]
      refine hspec.2 ?_
      rw [htm] at hcap
      have := hspec.1
      omega

set_option maxRecDepth 1000000 in
/-- Counterexample to the 20-step cap of C2: on 20 copies of `"th"`
(40 characters, 20 disjoint `t h` pairs each matching the `t+h` rule) the
loop stops after **19** merges with a pair still matching; under the
claimed 20-step cap a 20th merge would have been applied. -/
theorem c2_merge_cap_counterexample :
    (simulateBPE "thththththththththththththththththththth").totalMerges = 19 ∧
    findBest ((simulateBPE "thththththththththththththththththththth").finalTokens.map
      Token.text) ≠ none := by
  decide

/-!  ## Coherence of the two softmax embeddings, and C10 — MOE truncation  -/

theorem finVals_map_fin (l : List ℚ) : finVals (l.map JSNum.fin) = l := by
  induction l with
  | nil => rfl
  | cons a t ih => simp [finVals] at ih ⊢; exact ih

/-- On a nonempty all-finite input, the `JSNum`-level `softmax` agrees with
the rational specialisation `softmaxQ` used by the sampling pipeline and
the MOE router. -/
theorem softmax_eq_softmaxQ (E : ℚ → ℚ) (hpos : ∀ q, 0 < E q) (l : List ℚ)
    (hne : l ≠ []) :
    softmax E (l.map JSNum.fin) = (softmaxQ E l).map JSNum.fin := by
  have hshape : ∀ x ∈ l.map JSNum.fin, x = JSNum.ninf ∨ ∃ q, x = JSNum.fin q := by
    intro x hx
    obtain ⟨q, _, rfl⟩ := List.mem_map.mp hx
    exact Or.inr ⟨q, rfl⟩
  have hfin : ∃ q, JSNum.fin q ∈ l.map JSNum.fin := by
    match l, hne with
    | a :: t, _ => exact ⟨a, by simp⟩
  rw [softmax_eq_softCore E hpos _ hshape hfin]
  congr 1
  simp only [softCore, softmaxQ]
  rw [finVals_map_fin]
  have hinner : (l.map JSNum.fin).map (softExpTerm E (maxQ l)) =
      l.map fun x => E (x - maxQ l) := by
    rw [List.map_map]
    exact List.map_congr_left fun x _ => rfl
  rw [hinner]

theorem getEmbeddings_length (F : RealFns) (tokens : List Token) :
    (getEmbeddings F tokens).length = tokens.length := by
  simp [getEmbeddings]

/-- A fold of in-place index updates never changes the array length. -/
theorem foldl_set_len {α β : Type} (g : List α → β → List α)
    (hg : ∀ a e, (g a e).length = a.length) :
    ∀ (es : List β) (acc : List α), (es.foldl g acc).length = acc.length := by
  intro es
  induction es with
  | nil => intro acc; rfl
  | cons e rest ih =>
    intro acc
    rw [List.foldl_cons, ih (g acc e), hg]

/-- Structural facts about the body of `runMOEDemo` as a function of the
(truncated) token list. -/
theorem moeBody_facts (F : RealFns) (tks : List Token) :
    (moeBody F tks).tokens = tks ∧
    (moeBody F tks).routingResults.length = tks.length ∧
    (moeBody F tks).expertCounts.length = 8 ∧
    (moeBody F tks).expertWeights.length = 8 ∧
    (moeBody F tks).loadBalance.idealCount = ((tks.length : ℚ) * 2) / 8 := by
  refine ⟨rfl, ?_, ?_, ?_, rfl⟩
  · show ((getEmbeddings F tks).enum.map _).length = tks.length
    simp [getEmbeddings_length]
  · show (((getEmbeddings F tks).enum.map _).foldl _
      (List.replicate 8 (0 : ℕ))).length = 8
    rw [foldl_set_len _ ?hg]
    · simp
    case hg =>
      intro a r
      exact foldl_set_len _ (fun a e => by simp [List.length_set]) _ a
  · show (((getEmbeddings F tks).enum.map _).foldl _
      (List.replicate 8 (0 : ℚ))).length = 8
    rw [foldl_set_len _ ?hg2]
    · simp
    case hg2 =>
      intro a r
      exact foldl_set_len _ (fun a e => by simp [List.length_set]) _ a

/-- C10: `runMOEDemo` silently truncates to the first 10 tokens — the
returned tokens are exactly `(tokenize text).take 10` (hence at most 10),
the routing results are one per truncated token, the per-expert statistics
arrays have the fixed 8 entries, the ideal count is
`numTokens * topK / numExperts` over the truncated count, and the entire
result depends only on the first 10 tokens of the tokenization. -/
theorem c10_moe_truncation (F : RealFns) (text t2 : String) :
    (∀ h : (runMOEDemo F text).isSome = true,
      ((runMOEDemo F text).get h).tokens = (tokenize text).take 10 ∧
      ((runMOEDemo F text).get h).tokens.length ≤ 10 ∧
      ((runMOEDemo F text).get h).routingResults.length =
        ((runMOEDemo F text).get h).tokens.length ∧
      ((runMOEDemo F text).get h).expertCounts.length = 8 ∧
      ((runMOEDemo F text).get h).expertWeights.length = 8 ∧
      ((runMOEDemo F text).get h).loadBalance.idealCount =
        ((((runMOEDemo F text).get h).tokens.length : ℚ) * 2) / 8) ∧
    ((tokenize text).take 10 = (tokenize t2).take 10 →
      runMOEDemo F text = runMOEDemo F t2) := by
  constructor
  · intro h
    have hrun : runMOEDemo F text =
        if ((tokenize text).take 10).length = 0 then none
        else some (moeBody F ((tokenize text).take 10)) := rfl
    by_cases hz : ((tokenize text).take 10).length = 0
    · rw [hrun, if_pos hz] at h
      cases h
    · have hsome : runMOEDemo F text = some (moeBody F ((tokenize text).take 10)) := by
        rw [hrun, if_neg hz]
      have hget : (runMOEDemo F text).get h = moeBody F ((tokenize text).take 10) := by
        simp [hsome]
      obtain ⟨hb1, hb2, hb3, hb4, hb5⟩ := moeBody_facts F ((tokenize text).take 10)
      rw [hget, hb1]
      refine ⟨rfl, ?_, ?_, hb3, hb4, ?_⟩
      · rw [List.length_take]
        omega
      · rw [hb2]
      · rw [hb5]
  · intro heq
    have h1 : runMOEDemo F text =
        if ((tokenize text).take 10).length = 0 then none
        else some (moeBody F ((tokenize text).take 10)) := rfl
    have h2 : runMOEDemo F t2 =
        if ((tokenize t2).take 10).length = 0 then none
        else some (moeBody F ((tokenize t2).take 10)) := rfl
    rw [h1, h2, heq]

set_option maxRecDepth 400000 in
/-- The concrete 12-token witness input produces a result (`some`). -/
theorem moe_witness_isSome :
    (runMOEDemo dummyFns "a a a a a a a a a a a a").isSome = true := by
  decide

/-- Witness for C10 at the concrete 12-token input (truncated to 10). -/
theorem c10_moe_truncation_witness :
    (runMOEDemo dummyFns "a a a a a a a a a a a a").isSome = true ∧
    (((runMOEDemo dummyFns "a a a a a a a a a a a a").get moe_witness_isSome).tokens =
        (tokenize "a a a a a a a a a a a a").take 10 ∧
      ((runMOEDemo dummyFns "a a a a a a a a a a a a").get moe_witness_isSome).tokens.length ≤ 10 ∧
      ((runMOEDemo dummyFns "a a a a a a a a a a a a").get moe_witness_isSome).routingResults.length =
        ((runMOEDemo dummyFns "a a a a a a a a a a a a").get moe_witness_isSome).tokens.length ∧
      ((runMOEDemo dummyFns "a a a a a a a a a a a a").get moe_witness_isSome).expertCounts.length = 8 ∧
      ((runMOEDemo dummyFns "a a a a a a a a a a a a").get moe_witness_isSome).expertWeights.length = 8 ∧
      ((runMOEDemo dummyFns "a a a a a a a a a a a a").get moe_witness_isSome).loadBalance.idealCount =
        ((((runMOEDemo dummyFns "a a a a a a a a a a a a").get moe_witness_isSome).tokens.length : ℚ) * 2) / 8) ∧
    runMOEDemo dummyFns "a a a a a a a a a a a a" =
      runMOEDemo dummyFns "a a a a a a a a a a a a" :=
  ⟨moe_witness_isSome,
    (c10_moe_truncation dummyFns "a a a a a a a a a a a a"
      "a a a a a a a a a a a a").1 moe_witness_isSome,
    (c10_moe_truncation dummyFns "a a a a a a a a a a a a"
      "a a a a a a a a a a a a").2 rfl⟩

end Langsplain
